import Mathlib

/-!
# modbus_sniffer.c: frame synchroniser, CRC check, decoder and snapshot throttle

A shallow embedding of `src/sniffer/modbus_sniffer.c`.

* `uint8_t` is `Fin 256` (`Byte`); `uint16_t` values are `Nat` reduced `% 65536`
  at every assignment; `int` and `time_t` are `Int`.
* A `double` field holds the value of the binary64 number stored in it, as a
  rational. The C expression `x / 100.0` with an integer `x` is `double_div x 100`:
  the conversions of `x` and of the constant are exact, and the IEEE 754 division
  gives the quotient rounded to 53 significant bits, to nearest, ties to even.
* `g_buf`/`g_buflen` is the list of the live bytes, `g_buflen` being its length.
* `g_batteries` is a table indexed by `Fin 16`.
* `time(NULL)` is an input: `decode_frame` receives the reading as `now`, and
  `process_buffer` receives `clk`, where `clk j` is the reading the clock gives
  during the `j`-th pass of its `while` loop.
-/

set_option maxRecDepth 100000

namespace ModbusSniffer

/-! ## Constants -/

abbrev BUF_SIZE : Nat := 4096
abbrev FRAME_LEN : Nat := 39
abbrev NUM_REGS : Nat := 17
abbrev MAX_BATTERIES : Nat := 16
abbrev SIGNATURE_FUNC : Nat := 0x03
abbrev SIGNATURE_BCNT : Nat := 0x22

/-- The type `uint8_t`. -/
abbrev Byte := Fin 256

/-- The struct `battery_t`: per-battery decoded data. -/
structure battery_t where
  valid : Int
  timestamp : Int
  slave_id : Nat
  regs : Fin NUM_REGS → Nat
  soc_pct : Int
  voltage_v : ℚ
  current_a : ℚ
  temperature_c : Int
  cycle_count : Int
  max_charge_current_a : ℚ
  max_discharge_current_a : ℚ
  soh_pct : Int
  max_charge_voltage_v : ℚ

/-- The globals `g_buf`/`g_buflen` and `g_batteries`. -/
structure State where
  g_buf : List Byte
  g_batteries : Fin MAX_BATTERIES → battery_t

/-! ## Modbus CRC16 -/

/-- Body of the inner `for (j ...)` loop of `crc16`: one shift of the register. -/
def crc16_bit (crc : Nat) : Nat :=
  if crc &&& 1 ≠ 0 then ((crc >>> 1) ^^^ 0xA001) % 65536 else (crc >>> 1) % 65536

/-- Body of the outer loop of `crc16`: `crc ^= buf[i]`, then eight shifts. -/
def crc16_byte (crc : Nat) (b : Byte) : Nat :=
  (List.range 8).foldl (fun c _ => crc16_bit c) ((crc ^^^ b.val) % 65536)

/-- The function `crc16(buf, len)`: the bytes `buf[0..len)` are folded in order,
starting from `0xFFFF`. -/
def crc16 (buf : List Byte) (len : Nat) : Nat :=
  (buf.take len).foldl crc16_byte 0xFFFF

/-! ### CRC-16/MODBUS as the specification words it

A 16-bit register starts at `0xFFFF`; the message is fed one bit at a time, the
bits of each byte least significant first; each bit is combined with the
register's low bit, the register moves right by one place, and the reflected
polynomial `0xA001` is added (xor) when the combined bit is one. No final xor. -/

/-- The bits of a byte, least significant first. -/
def bits_lsb_first (b : Byte) : List Bool :=
  (List.range 8).map (fun k => b.val.testBit k)

/-- One message bit enters the register. -/
def crc16_modbus_shift (reg : Nat) (d : Bool) : Nat :=
  if xor (reg.testBit 0) d then (reg / 2) ^^^ 0xA001 else reg / 2

/-- One byte enters the register, bit by bit. -/
def crc16_modbus_byte (reg : Nat) (b : Byte) : Nat :=
  (bits_lsb_first b).foldl crc16_modbus_shift reg

/-- CRC-16/MODBUS of a message. -/
def crc16_modbus (msg : List Byte) : Nat :=
  msg.foldl crc16_modbus_byte 0xFFFF

/-! ## Frame decoder -/

/-- The C expression `frame[i]`, as an `int`. -/
def byte_at (frame : List Byte) (i : Nat) : Nat := (frame.getD i 0).val

/-- The value `(uint16_t)((frame[3 + i * 2] << 8) | frame[3 + i * 2 + 1])`. -/
def reg_value (frame : List Byte) (i : Nat) : Nat :=
  ((byte_at frame (3 + i * 2) <<< 8) ||| byte_at frame (3 + i * 2 + 1)) % 65536

/-- The loop `for (i = 0; i < NUM_REGS; i++) b->regs[i] = ...`. -/
def extract_regs (frame : List Byte) (regs : Fin NUM_REGS → Nat) : Fin NUM_REGS → Nat :=
  (List.finRange NUM_REGS).foldl (fun r i => Function.update r i (reg_value frame i.val)) regs

/-! ### Binary64 division -/

/-- Round to nearest, ties to even, of the quotient `num / den` of two naturals
(`den ≠ 0`): the floor `q` when the remainder is below half of `den`, `q + 1`
when it is above, and the even one of the two at a tie. -/
def round_half_even (num den : Nat) : Nat :=
  let q := num / den
  let r := num % den
  if 2 * r < den then q else if den < 2 * r then q + 1 else q + q % 2

/-- The number of binary digits of `n`, by halving; `fuel` bounds the halvings. -/
def bit_length_aux : Nat → Nat → Nat
  | 0, _ => 0
  | fuel + 1, n => if n = 0 then 0 else bit_length_aux fuel (n / 2) + 1

/-- The number of binary digits of `n` (`0` for `0`). -/
def bit_length (n : Nat) : Nat := bit_length_aux n n

/-- The power of two that brings the quotient `p / d` into `[2^52, 2^53)`: with
`s` the digits of `d`, `p * 2^s / d` is at least 1 and its digit count, less
`s`, is the binary exponent of `p / d` plus one (`double_scale_spec`). -/
def double_scale (p d : Nat) : Nat :=
  let s := bit_length d
  53 + s - bit_length (p * 2 ^ s / d)

/-- The C expression `(double)n / (double)d` for an integer `n` with
`|n| < 2^53` and a constant `d` with `0 < d < 2^53` (both conversions exact):
the binary64 quotient, that is `n / d` rounded to a 53-bit significand `m`, to
nearest, ties to even, with value `± m / 2^k`. Every quotient the decoder forms
is `0` or lies between `1/1000` and `655.35`, in the normal range. -/
def double_div (n : Int) (d : Nat) : ℚ :=
  if n = 0 then 0
  else
    let p := n.natAbs
    let k := double_scale p d
    let m := round_half_even (p * 2 ^ k) d
    if n < 0 then -((m : ℚ) / 2 ^ k) else (m : ℚ) / 2 ^ k

/-- The cast `(int16_t)x` of a `uint16_t`. -/
def to_int16 (x : Nat) : Int :=
  if x % 65536 < 32768 then ((x % 65536 : Nat) : Int) else ((x % 65536 : Nat) : Int) - 65536

/-- The function `decode_frame(frame)`; `now` is what `time(NULL)` returns. -/
def decode_frame (now : Int) (frame : List Byte)
    (g : Fin MAX_BATTERIES → battery_t) : Fin MAX_BATTERIES → battery_t :=
  let slave_id := byte_at frame 0
  if h : slave_id = 0 ∨ slave_id > MAX_BATTERIES then g
  else
    let k : Fin MAX_BATTERIES := ⟨slave_id - 1, by omega⟩
    let b := g k
    let regs := extract_regs frame b.regs
    let raw_cur := to_int16 (regs 4)
    Function.update g k
      { b with
        regs := regs
        soc_pct := (regs 2 : Int)
        voltage_v := double_div (regs 3 : Int) 100
        current_a := double_div raw_cur 100
        temperature_c := (regs 5 : Int)
        cycle_count := (regs 0 : Int)
        max_charge_current_a := double_div (regs 7 : Int) 1000
        max_discharge_current_a := double_div (regs 8 : Int) 1000
        soh_pct := (regs 13 : Int)
        max_charge_voltage_v := double_div (regs 14 : Int) 100
        slave_id := slave_id
        timestamp := now
        valid := 1 }

/-! ## Buffer scanner -/

/-- The test `g_buf[idx] != 0x00 && g_buf[idx+1] == SIGNATURE_FUNC &&
g_buf[idx+2] == SIGNATURE_BCNT`. -/
def sig_at (buf : List Byte) (idx : Nat) : Bool :=
  byte_at buf idx ≠ 0 && byte_at buf (idx + 1) = SIGNATURE_FUNC &&
    byte_at buf (idx + 2) = SIGNATURE_BCNT

/-- The scan `for (idx = ...; idx + FRAME_LEN <= g_buflen; idx++)` with `n`
positions left to try from `idx`: the first position that matches, if any. -/
def scan (buf : List Byte) : Nat → Nat → Option Nat
  | _, 0 => none
  | idx, n + 1 => if sig_at buf idx then some idx else scan buf (idx + 1) n

/-- The scan from `idx = 0`: the positions with `idx + FRAME_LEN <= g_buflen`
are `0, ..., g_buflen - FRAME_LEN`. `none` is `found == 0`. -/
def find_signature (buf : List Byte) : Option Nat :=
  scan buf 0 (buf.length + 1 - FRAME_LEN)

/-- The block `verify CRC`: `crc_recv == crc_calc` for the frame at the head of
the buffer. -/
def crc_matches (buf : List Byte) : Bool :=
  let crc_recv := (byte_at buf 37 ||| (byte_at buf 38 <<< 8)) % 65536
  let crc_calc := crc16 buf 37
  crc_recv = crc_calc

/-- One pass of the `while` loop of `process_buffer`, from the test of its
condition on; `now` is the clock during the pass. The flag tells whether the
loop goes round again (`true`) or is left by `return` or by its condition
(`false`). -/
def process_buffer_pass (now : Int) (s : State) : State × Bool :=
  if s.g_buf.length < FRAME_LEN then (s, false)
  else
    match find_signature s.g_buf with
    | none =>
      if s.g_buf.length > FRAME_LEN then
        ({ s with g_buf := s.g_buf.drop (s.g_buf.length - (FRAME_LEN - 1)) }, false)
      else (s, false)
    | some idx =>
      let buf1 := if idx > 0 then s.g_buf.drop idx else s.g_buf
      if buf1.length < FRAME_LEN then ({ s with g_buf := buf1 }, false)
      else
        let bats :=
          if crc_matches buf1 then decode_frame now buf1 s.g_batteries
          else s.g_batteries
        ({ g_buf := buf1.drop FRAME_LEN, g_batteries := bats }, true)

/-- The `while` loop of `process_buffer`, at most `fuel` passes. -/
def process_buffer_loop : Nat → (Nat → Int) → State → State
  | 0, _, s => s
  | fuel + 1, clk, s =>
    match process_buffer_pass (clk 0) s with
    | (s1, true) => process_buffer_loop fuel (fun j => clk (j + 1)) s1
    | (s1, false) => s1

/-- The function `process_buffer()`. A pass that goes round again has removed
`FRAME_LEN` bytes, so `g_buflen / FRAME_LEN + 1` passes always reach a `return`
or the loop exit (`process_buffer_loop_fuel`). -/
def process_buffer (clk : Nat → Int) (s : State) : State :=
  process_buffer_loop (s.g_buf.length / FRAME_LEN + 1) clk s

/-! ## Main loop -/

/-- The number of bytes dropped ahead of an append of `n` bytes: `n - avail`
when `n > avail`, where `avail = BUF_SIZE - g_buflen`. -/
def discard_count (n buflen : Nat) : Nat :=
  if n > BUF_SIZE - buflen then n - (BUF_SIZE - buflen) else 0

/-- The append of a chunk `tmp` (`n = tmp.length`) to `g_buf`, oldest bytes
dropped on overflow. -/
def append_chunk (tmp : List Byte) (buf : List Byte) : List Byte :=
  buf.drop (discard_count tmp.length buf.length) ++ tmp

/-- The test `any_valid` of the main loop. -/
def any_valid (g : Fin MAX_BATTERIES → battery_t) : Bool :=
  (List.finRange MAX_BATTERIES).any (fun i => decide ((g i).valid ≠ 0))

/-- What `read(fd, tmp, sizeof(tmp))` gives: `n < 0` (with `errno == EINTR` or
not), or `n >= 0` bytes. -/
inductive ReadResult where
  | error (eintr : Bool)
  | data (tmp : List Byte)

/-- What one pass of the main loop takes from outside: the result of `read`,
the clock during `process_buffer`, and the reading `now = time(NULL)` after it. -/
structure Iteration where
  read : ReadResult
  clk : Nat → Int
  now : Int

/-- The state of `main` in its loop: the globals, `last_write`, whether the loop
was left through `break`, and the list of the readings `now` at which
`write_json` was called (latest first). -/
structure MainState where
  st : State
  last_write : Int
  exited : Bool
  writes : List Int

/-- The state on entry to the loop: an empty buffer, a zeroed table,
`last_write = 0`. -/
def MainState.init (g : Fin MAX_BATTERIES → battery_t) : MainState :=
  { st := { g_buf := [], g_batteries := g }, last_write := 0, exited := false, writes := [] }

/-- One pass of `while (g_running)`. -/
def main_iter (m : MainState) (it : Iteration) : MainState :=
  if m.exited then m
  else
    match it.read with
    | .error true => m
    | .error false => { m with exited := true }
    | .data tmp =>
      if tmp.length = 0 then m
      else
        let s := process_buffer it.clk
          { g_buf := append_chunk tmp m.st.g_buf, g_batteries := m.st.g_batteries }
        if it.now ≠ m.last_write then
          if any_valid s.g_batteries then
            { m with st := s, last_write := it.now, writes := it.now :: m.writes }
          else { m with st := s }
        else { m with st := s }

/-- The main loop over a finite run of passes. -/
def main_loop (m : MainState) (its : List Iteration) : MainState :=
  its.foldl main_iter m

/-! ## Readings -/

/-- The entry `decode_frame` writes: every field comes from the frame and the
clock, none from the entry that was there. -/
def decoded_entry (now : Int) (frame : List Byte) : battery_t :=
  { valid := 1
    timestamp := now
    slave_id := byte_at frame 0
    regs := fun i => reg_value frame i.val
    soc_pct := (reg_value frame 2 : Int)
    voltage_v := double_div (reg_value frame 3 : Int) 100
    current_a := double_div (to_int16 (reg_value frame 4)) 100
    temperature_c := (reg_value frame 5 : Int)
    cycle_count := (reg_value frame 0 : Int)
    max_charge_current_a := double_div (reg_value frame 7 : Int) 1000
    max_discharge_current_a := double_div (reg_value frame 8 : Int) 1000
    soh_pct := (reg_value frame 13 : Int)
    max_charge_voltage_v := double_div (reg_value frame 14 : Int) 100 }

/-- The value `x` is the binary64 quotient of the integer `n` by `d`: it is what
`double_div` gives, and it lies within a relative `2^-53` of the exact
rational `n / d`. -/
def binary64_quotient (x : ℚ) (n : Int) (d : Nat) : Prop :=
  x = double_div n d ∧ |x - (n : ℚ) / d| ≤ |(n : ℚ) / d| / 2 ^ 53

/-- What the specification's table says of an entry `b` and a frame `f`: the
entry is valid, carries the frame's slave identifier and its 17 big-endian
registers, the integer fields are the registers of their rows, and the scaled
fields are the binary64 quotients `raw / 100.0` and `raw / 1000.0` of their
rows (within a relative `2^-53` of the exact scaled value), the current from
the register read as a signed 16-bit value; the capture timestamp is left out. -/
def holds_reading (b : battery_t) (f : List Byte) : Prop :=
  b.valid = 1 ∧ b.slave_id = byte_at f 0 ∧
  (∀ i : Fin NUM_REGS, b.regs i = 256 * byte_at f (3 + 2 * i.val) + byte_at f (4 + 2 * i.val)) ∧
  b.cycle_count = (b.regs 0 : Int) ∧
  b.soc_pct = (b.regs 2 : Int) ∧
  binary64_quotient b.voltage_v (b.regs 3 : Int) 100 ∧
  binary64_quotient b.current_a
    (if b.regs 4 ≥ 32768 then (b.regs 4 : Int) - 65536 else (b.regs 4 : Int)) 100 ∧
  b.temperature_c = (b.regs 5 : Int) ∧
  binary64_quotient b.max_charge_current_a (b.regs 7 : Int) 1000 ∧
  binary64_quotient b.max_discharge_current_a (b.regs 8 : Int) 1000 ∧
  b.soh_pct = (b.regs 13 : Int) ∧
  binary64_quotient b.max_charge_voltage_v (b.regs 14 : Int) 100

/-- An entry with its capture timestamp blanked. -/
def drop_timestamp (b : battery_t) : battery_t := { b with timestamp := 0 }

/-- Two tables hold the same readings, capture timestamps aside. -/
def same_readings (g1 g2 : Fin MAX_BATTERIES → battery_t) : Prop :=
  ∀ k, drop_timestamp (g1 k) = drop_timestamp (g2 k)

/-- A valid frame: 39 bytes, slave identifier in 1..16, the signature bytes
`0x03 0x22`, and the CRC of the first 37 bytes in bytes 37 (low) and 38 (high). -/
def valid_frame (f : List Byte) : Prop :=
  f.length = FRAME_LEN ∧ 1 ≤ byte_at f 0 ∧ byte_at f 0 ≤ MAX_BATTERIES ∧
  byte_at f 1 = SIGNATURE_FUNC ∧ byte_at f 2 = SIGNATURE_BCNT ∧
  byte_at f 37 = crc16 f 37 % 256 ∧ byte_at f 38 = crc16 f 37 / 256

instance (f : List Byte) : Decidable (valid_frame f) := by
  unfold valid_frame; infer_instance

/-- Pass `j` of the run `its` from start-up observes the clock reading `t` with
a valid entry in the table: the pass reads a non-empty chunk while the loop is
still running, its reading `now` is `t`, and after its `process_buffer` some
entry is valid (as it is after any pass that decodes a valid frame). -/
def observes_valid (g : Fin MAX_BATTERIES → battery_t) (its : List Iteration) (j : Nat)
    (t : Int) : Prop :=
  ∃ it tmp, its[j]? = some it ∧ it.read = .data tmp ∧ tmp.length ≠ 0 ∧ it.now = t ∧
    (main_loop (MainState.init g) (its.take j)).exited = false ∧
    any_valid (main_loop (MainState.init g) (its.take (j + 1))).st.g_batteries = true

/-- The writes so far: no second twice, none later than `last_write`, and
`last_write` is the initial `0` with nothing written or is a written second. -/
def writes_ok (m : MainState) : Prop :=
  m.writes.Nodup ∧ (∀ w ∈ m.writes, w ≤ m.last_write) ∧
    ((m.writes = [] ∧ m.last_write = 0) ∨ m.last_write ∈ m.writes)

/-! ## Example inputs -/

/-- A zeroed `battery_t`, as in the static table at start-up. -/
def battery_zero : battery_t :=
  { valid := 0, timestamp := 0, slave_id := 0, regs := fun _ => 0, soc_pct := 0,
    voltage_v := 0, current_a := 0, temperature_c := 0, cycle_count := 0,
    max_charge_current_a := 0, max_discharge_current_a := 0, soh_pct := 0,
    max_charge_voltage_v := 0 }

/-- The table `g_batteries` at start-up. -/
def batteries_zero : Fin MAX_BATTERIES → battery_t := fun _ => battery_zero

/-- Slave 5, registers `[10,0,85,5120,-150,28,0,50,20,0,0,0,0,98,5300,0,0]`,
without the CRC. -/
def body5 : List Byte :=
  [5, 3, 0x22, 0, 10, 0, 0, 0, 85, 0x14, 0x00, 0xFF, 0x6A, 0, 28, 0, 0, 0, 50, 0, 20,
   0, 0, 0, 0, 0, 0, 0, 0, 0, 98, 0x14, 0xB4, 0, 0, 0, 0]

/-- The frame of slave 5 with its CRC `0x8614`, low byte first. -/
def frame5 : List Byte := body5 ++ [20, 134]

/-- Slave 7, registers `1, ..., 17`, without the CRC. -/
def body7 : List Byte :=
  [7, 3, 0x22, 0, 1, 0, 2, 0, 3, 0, 4, 0, 5, 0, 6, 0, 7, 0, 8, 0, 9,
   0, 10, 0, 11, 0, 12, 0, 13, 0, 14, 0, 15, 0, 16, 0, 17]

/-- The frame of slave 7 with its CRC `0xFD6D`, low byte first. -/
def frame7 : List Byte := body7 ++ [109, 253]

/-- The frame of slave 5 with a wrong CRC. -/
def frame5_bad : List Byte := body5 ++ [0, 0]

/-- A frame for slave 5 with the registers of `body7`; the CRC bytes are not
read by `decode_frame`. -/
def frame5_other : List Byte := 5 :: (body7.drop 1 ++ [0, 0])

/-- Six bytes of noise with no signature among them; the last two are the
start of a signature that the next byte does not complete. -/
def noise6 : List Byte := [0x11, 0x03, 0x00, 0x22, 0x09, 0x03]

/-- Two passes within second 100: the frame of slave 5, then that of slave 7. -/
def run_second_100 : List Iteration :=
  [{ read := .data frame5, clk := fun _ => 100, now := 100 },
   { read := .data frame7, clk := fun _ => 100, now := 100 }]

/-- Two passes while the clock reads 0: the frame of slave 5, then that of
slave 7. -/
def run_second_0 : List Iteration :=
  [{ read := .data frame5, clk := fun _ => 0, now := 0 },
   { read := .data frame7, clk := fun _ => 0, now := 0 }]

/-- The nine ASCII bytes `123456789`. -/
def ascii_check : List Byte := [0x31, 0x32, 0x33, 0x34, 0x35, 0x36, 0x37, 0x38, 0x39]

/-- The 37 bytes `05 03 22` and 34 zero bytes. -/
def crc_vector : List Byte := [0x05, 0x03, 0x22] ++ List.replicate 34 0

/-! ## The scan -/

theorem scan_eq_none (buf : List Byte) (n idx : Nat) :
    scan buf idx n = none ↔ ∀ j, idx ≤ j → j < idx + n → sig_at buf j = false := by
  induction n generalizing idx with
  | zero => simp [scan]; intro j h1 h2; omega
  | succ n ih =>
    rw [scan]
    by_cases h : sig_at buf idx = true
    · rw [if_pos h]
      constructor
      · intro h0; cases h0
      · intro hall
        have := hall idx (le_refl _) (by omega)
        rw [h] at this; cases this
    · rw [if_neg h, ih]
      constructor
      · intro hall j h1 h2
        rcases Nat.eq_or_lt_of_le h1 with heq | hlt
        · subst heq; simpa using h
        · exact hall j hlt (by omega)
      · intro hall j h1 h2
        exact hall j (by omega) (by omega)

theorem scan_eq_some (buf : List Byte) (n idx i : Nat) :
    scan buf idx n = some i ↔
      idx ≤ i ∧ i < idx + n ∧ sig_at buf i = true ∧
        ∀ j, idx ≤ j → j < i → sig_at buf j = false := by
  induction n generalizing idx with
  | zero => simp [scan]; intro h1 h2; omega
  | succ n ih =>
    rw [scan]
    by_cases h : sig_at buf idx = true
    · rw [if_pos h, Option.some.injEq]
      constructor
      · intro heq; subst heq
        exact ⟨le_refl _, by omega, h, fun j h1 h2 => by omega⟩
      · rintro ⟨h1, _, _, h4⟩
        rcases Nat.eq_or_lt_of_le h1 with heq | hlt
        · exact heq
        · have := h4 idx (le_refl _) hlt
          rw [h] at this; cases this
    · rw [if_neg h, ih]
      constructor
      · rintro ⟨h1, h2, h3, h4⟩
        refine ⟨by omega, by omega, h3, fun j hj1 hj2 => ?_⟩
        rcases Nat.eq_or_lt_of_le hj1 with heq | hlt
        · subst heq; simpa using h
        · exact h4 j hlt hj2
      · rintro ⟨h1, h2, h3, h4⟩
        have hne : idx ≠ i := by
          intro heq; subst heq; exact h h3
        exact ⟨by omega, by omega, h3, fun j hj1 hj2 => h4 j (by omega) hj2⟩

theorem find_signature_eq_none (buf : List Byte) :
    find_signature buf = none ↔
      ∀ j, j + FRAME_LEN ≤ buf.length → sig_at buf j = false := by
  unfold find_signature
  rw [scan_eq_none]
  constructor
  · intro h j hj; exact h j (Nat.zero_le _) (by omega)
  · intro h j _ hj; exact h j (by omega)

theorem find_signature_eq_some (buf : List Byte) (i : Nat) :
    find_signature buf = some i ↔
      i + FRAME_LEN ≤ buf.length ∧ sig_at buf i = true ∧
        ∀ j, j < i → sig_at buf j = false := by
  unfold find_signature
  rw [scan_eq_some]
  constructor
  · rintro ⟨_, h2, h3, h4⟩
    exact ⟨by omega, h3, fun j hj => h4 j (Nat.zero_le _) hj⟩
  · rintro ⟨h1, h2, h3⟩
    exact ⟨Nat.zero_le _, by omega, h2, fun j _ hj => h3 j hj⟩

/-! ## The loop of `process_buffer` reaches its end within its fuel -/

theorem process_buffer_pass_short (now : Int) (s : State)
    (h : s.g_buf.length < FRAME_LEN) : process_buffer_pass now s = (s, false) := by
  simp [process_buffer_pass, h]

theorem process_buffer_pass_none (now : Int) (s : State)
    (h : FRAME_LEN ≤ s.g_buf.length) (hfind : find_signature s.g_buf = none) :
    process_buffer_pass now s =
      (if s.g_buf.length > FRAME_LEN then
        { s with g_buf := s.g_buf.drop (s.g_buf.length - (FRAME_LEN - 1)) }
      else s, false) := by
  have h1 : ¬ s.g_buf.length < FRAME_LEN := by omega
  simp only [process_buffer_pass, h1, if_false, hfind]
  split <;> rfl

theorem process_buffer_pass_some (now : Int) (s : State) (idx : Nat)
    (hfind : find_signature s.g_buf = some idx) :
    process_buffer_pass now s =
      ({ g_buf := (s.g_buf.drop idx).drop FRAME_LEN,
         g_batteries :=
           if crc_matches (s.g_buf.drop idx) then
             decode_frame now (s.g_buf.drop idx) s.g_batteries
           else s.g_batteries }, true) := by
  have hidx := ((find_signature_eq_some _ _).1 hfind).1
  have h1 : ¬ s.g_buf.length < FRAME_LEN := by omega
  have hbuf : (if idx > 0 then s.g_buf.drop idx else s.g_buf) = s.g_buf.drop idx := by
    split
    · rfl
    · have : idx = 0 := by omega
      simp [this]
  have h2 : ¬ (s.g_buf.drop idx).length < FRAME_LEN := by
    simp only [List.length_drop]; omega
  simp only [process_buffer_pass, h1, if_false, hfind, hbuf, h2]

/-- A pass that goes round again has removed at least `FRAME_LEN` bytes. -/
theorem process_buffer_pass_continue (now : Int) (s s1 : State)
    (h : process_buffer_pass now s = (s1, true)) :
    s1.g_buf.length + FRAME_LEN ≤ s.g_buf.length := by
  by_cases hlen : s.g_buf.length < FRAME_LEN
  · rw [process_buffer_pass_short now s hlen] at h; cases h
  · cases hfind : find_signature s.g_buf with
    | none =>
      rw [process_buffer_pass_none now s (by omega) hfind] at h
      cases h
    | some idx =>
      have hidx := ((find_signature_eq_some _ _).1 hfind).1
      rw [process_buffer_pass_some now s idx hfind] at h
      cases h
      simp only [List.length_drop]; omega

theorem process_buffer_loop_fuel (fuel1 : Nat) :
    ∀ (fuel2 : Nat) (clk : Nat → Int) (s : State),
      s.g_buf.length / FRAME_LEN < fuel1 → s.g_buf.length / FRAME_LEN < fuel2 →
      process_buffer_loop fuel1 clk s = process_buffer_loop fuel2 clk s := by
  induction fuel1 with
  | zero => intro fuel2 clk s h; exact absurd h (Nat.not_lt_zero _)
  | succ n ih =>
    intro fuel2 clk s h1 h2
    cases fuel2 with
    | zero => exact absurd h2 (Nat.not_lt_zero _)
    | succ m =>
      rw [process_buffer_loop, process_buffer_loop]
      rcases hp : process_buffer_pass (clk 0) s with ⟨s1, c⟩
      cases c with
      | false => rfl
      | true =>
        have hc := process_buffer_pass_continue _ _ _ hp
        simp only
        apply ih
        · simp only [FRAME_LEN] at *; omega
        · simp only [FRAME_LEN] at *; omega

/-- A buffer shorter than a frame is left alone. -/
theorem process_buffer_short (clk : Nat → Int) (s : State)
    (h : s.g_buf.length < FRAME_LEN) : process_buffer clk s = s := by
  rw [process_buffer, process_buffer_loop, process_buffer_pass_short _ _ h]

/-- No signature in the window: the tail is kept and the call returns. -/
theorem process_buffer_none (clk : Nat → Int) (s : State)
    (h : FRAME_LEN ≤ s.g_buf.length) (hfind : find_signature s.g_buf = none) :
    process_buffer clk s =
      if s.g_buf.length > FRAME_LEN then
        { s with g_buf := s.g_buf.drop (s.g_buf.length - (FRAME_LEN - 1)) }
      else s := by
  rw [process_buffer, process_buffer_loop, process_buffer_pass_none _ _ h hfind]

/-- A signature at `idx`: the bytes before it are dropped, the frame is checked
and decoded, the frame is dropped, and the loop goes on. -/
theorem process_buffer_some (clk : Nat → Int) (s : State) (idx : Nat)
    (hfind : find_signature s.g_buf = some idx) :
    process_buffer clk s =
      process_buffer (fun j => clk (j + 1))
        { g_buf := (s.g_buf.drop idx).drop FRAME_LEN,
          g_batteries :=
            if crc_matches (s.g_buf.drop idx) then
              decode_frame (clk 0) (s.g_buf.drop idx) s.g_batteries
            else s.g_batteries } := by
  have hidx := ((find_signature_eq_some _ _).1 hfind).1
  rw [process_buffer, process_buffer_loop, process_buffer_pass_some _ _ idx hfind]
  simp only
  rw [process_buffer]
  apply process_buffer_loop_fuel
  · simp only [List.length_drop]
    simp only [FRAME_LEN] at *; omega
  · simp only [List.length_drop]
    simp only [FRAME_LEN] at *; omega

/-! ## Bytes, 16-bit words and the CRC register -/

theorem byte_at_lt (buf : List Byte) (i : Nat) : byte_at buf i < 256 :=
  (buf.getD i 0).isLt

theorem byte_at_append_left (w t : List Byte) (i : Nat) (h : i < w.length) :
    byte_at (w ++ t) i = byte_at w i := by
  simp [byte_at, List.getD_eq_getElem?_getD, List.getElem?_append_left h]

theorem byte_at_drop (buf : List Byte) (k i : Nat) :
    byte_at (buf.drop k) i = byte_at buf (k + i) := by
  simp [byte_at, List.getD_eq_getElem?_getD, List.getElem?_drop]

/-- A high byte shifted into place and a low byte: the big-endian word. -/
theorem shift_or_eq (a b : Nat) (ha : a < 256) (hb : b < 256) :
    ((a <<< 8) ||| b) % 65536 = 256 * a + b := by
  have h1 : a <<< 8 = 2 ^ 8 * a := by rw [Nat.shiftLeft_eq, Nat.mul_comm]
  rw [h1, ← Nat.mul_add_lt_is_or (by simpa using hb) a]
  omega

/-- A low byte and a high byte shifted into place: the little-endian word. -/
theorem or_shift_eq (a b : Nat) (ha : a < 256) (hb : b < 256) :
    (a ||| (b <<< 8)) % 65536 = a + 256 * b := by
  rw [Nat.lor_comm, shift_or_eq b a hb ha]; omega

theorem crc16_bit_lt (crc : Nat) : crc16_bit crc < 65536 := by
  unfold crc16_bit; split <;> exact Nat.mod_lt _ (by decide)

theorem crc16_byte_lt (crc : Nat) (b : Byte) : crc16_byte crc b < 65536 := by
  simp only [crc16_byte, List.range_succ, List.range_zero, List.nil_append,
    List.foldl_append, List.foldl_cons, List.foldl_nil]
  exact crc16_bit_lt _

theorem foldl_crc16_byte_lt (l : List Byte) (crc : Nat) (h : crc < 65536) :
    l.foldl crc16_byte crc < 65536 := by
  induction l generalizing crc with
  | nil => simpa using h
  | cons b l ih => exact ih _ (crc16_byte_lt crc b)

/-- The result of `crc16` fits its type `uint16_t`. -/
theorem crc16_lt (buf : List Byte) (len : Nat) : crc16 buf len < 65536 :=
  foldl_crc16_byte_lt _ _ (by decide)

theorem crc16_append_left (w t : List Byte) (n : Nat) (h : n ≤ w.length) :
    crc16 (w ++ t) n = crc16 w n := by
  unfold crc16
  rw [List.take_append_of_le_length h]

/-- The check of `process_buffer`, on the little-endian word of bytes 37, 38. -/
theorem crc_matches_iff (buf : List Byte) :
    crc_matches buf = true ↔ byte_at buf 37 + 256 * byte_at buf 38 = crc16 buf 37 := by
  simp only [crc_matches, or_shift_eq _ _ (byte_at_lt buf 37) (byte_at_lt buf 38),
    decide_eq_true_eq]

theorem crc_matches_append_left (w t : List Byte) (h : w.length = FRAME_LEN) :
    crc_matches (w ++ t) = crc_matches w := by
  simp only [FRAME_LEN] at h
  have h37 : byte_at (w ++ t) 37 = byte_at w 37 := byte_at_append_left w t 37 (by omega)
  have h38 : byte_at (w ++ t) 38 = byte_at w 38 := byte_at_append_left w t 38 (by omega)
  have hc : crc16 (w ++ t) 37 = crc16 w 37 := crc16_append_left w t 37 (by omega)
  simp only [crc_matches, h37, h38, hc]

/-! ## Binary64 division -/

theorem bit_length_aux_spec (fuel : Nat) :
    ∀ n, n ≤ fuel → n < 2 ^ bit_length_aux fuel n ∧ (n ≠ 0 → 2 ^ bit_length_aux fuel n ≤ 2 * n) := by
  induction fuel with
  | zero =>
    intro n hn
    have : n = 0 := by omega
    subst this
    simp [bit_length_aux]
  | succ fuel ih =>
    intro n hn
    rw [bit_length_aux]
    by_cases h0 : n = 0
    · subst h0; simp
    · rw [if_neg h0]
      obtain ⟨h1, h2⟩ := ih (n / 2) (by omega)
      rw [Nat.pow_succ]
      refine ⟨by omega, fun _ => ?_⟩
      by_cases hh : n / 2 = 0
      · have hn1 : n = 1 := by omega
        subst hn1
        rw [hh]
        cases fuel <;> simp [bit_length_aux]
      · have := h2 hh
        omega

theorem bit_length_spec (n : Nat) :
    n < 2 ^ bit_length n ∧ (n ≠ 0 → 2 ^ bit_length n ≤ 2 * n) :=
  bit_length_aux_spec n n (le_refl n)

theorem double_scale_spec (p d : Nat) (hp : 0 < p) (hd : 0 < d) (h53 : p < 2 ^ 53) :
    2 ^ 52 * d ≤ p * 2 ^ double_scale p d ∧ p * 2 ^ double_scale p d < 2 ^ 53 * d := by
  unfold double_scale
  simp only
  obtain ⟨hs1, hs2⟩ := bit_length_spec d
  have hs2 := hs2 (by omega)
  generalize bit_length d = s at *
  have hpos : 0 < 2 ^ s := pow_pos (by decide) s
  have hX1 : d * (p * 2 ^ s / d) ≤ p * 2 ^ s := Nat.mul_div_le _ _
  have hX2 : p * 2 ^ s < d * (p * 2 ^ s / d + 1) := by
    have := Nat.lt_mul_div_succ (p * 2 ^ s) hd
    simpa [Nat.mul_comm] using this
  have hXpos : p * 2 ^ s / d ≠ 0 := by
    have : d ≤ p * 2 ^ s := by nlinarith
    have := Nat.div_pos this hd
    omega
  obtain ⟨hb1, hb2⟩ := bit_length_spec (p * 2 ^ s / d)
  have hb2 := hb2 hXpos
  generalize p * 2 ^ s / d = X at *
  generalize bit_length X = B at *
  have hB : B ≤ 53 + s := by
    by_contra hlt
    have h1 : 2 ^ (54 + s) ≤ 2 ^ B := Nat.pow_le_pow_right (by decide) (by omega)
    have h2 : 2 ^ (54 + s) = 2 ^ 54 * 2 ^ s := Nat.pow_add _ _ _
    have h3 : X ≤ p * 2 ^ s := by
      calc X ≤ d * X := Nat.le_mul_of_pos_left _ hd
        _ ≤ p * 2 ^ s := hX1
    have h4 : p * 2 ^ s < 2 ^ 53 * 2 ^ s := Nat.mul_lt_mul_of_pos_right h53 hpos
    have e54 : (2:Nat) ^ 54 = 2 * 2 ^ 53 := by decide
    rw [e54] at h2
    nlinarith
  have hk : 2 ^ (53 + s - B) * 2 ^ B = 2 ^ 53 * 2 ^ s := by
    rw [← Nat.pow_add, ← Nat.pow_add]
    congr 1
    omega
  have hBpos : 0 < 2 ^ B := pow_pos (by decide) B
  generalize 2 ^ (53 + s - B) = K at *
  generalize 2 ^ B = TB at *
  generalize 2 ^ s = TS at *
  have e53 : (2:Nat) ^ 53 = 2 * 2 ^ 52 := by decide
  constructor
  · apply Nat.le_of_mul_le_mul_right _ hBpos
    calc 2 ^ 52 * d * TB ≤ 2 ^ 52 * d * (2 * X) := Nat.mul_le_mul_left _ hb2
      _ = 2 ^ 53 * (d * X) := by rw [e53]; ring
      _ ≤ 2 ^ 53 * (p * TS) := Nat.mul_le_mul_left _ hX1
      _ = p * (2 ^ 53 * TS) := by ring
      _ = p * (K * TB) := by rw [hk]
      _ = p * K * TB := by ring
  · apply Nat.lt_of_mul_lt_mul_right (a := TB)
    calc p * K * TB = p * (K * TB) := by ring
      _ = p * (2 ^ 53 * TS) := by rw [hk]
      _ = 2 ^ 53 * (p * TS) := by ring
      _ < 2 ^ 53 * (d * (X + 1)) := Nat.mul_lt_mul_of_pos_left hX2 (by decide)
      _ ≤ 2 ^ 53 * (d * TB) := Nat.mul_le_mul_left _ (Nat.mul_le_mul_left _ hb1)
      _ = 2 ^ 53 * d * TB := by ring

theorem round_half_even_spec (num den : Nat) (hd : 0 < den) :
    |((round_half_even num den : Nat) : ℚ) * den - num| ≤ (den : ℚ) / 2 := by
  have hnum : (num : ℚ) = den * (num / den : Nat) + (num % den : Nat) := by
    exact_mod_cast (Nat.div_add_mod num den).symm
  have hr : num % den < den := Nat.mod_lt _ hd
  have hr' : ((num % den : Nat) : ℚ) < den := by exact_mod_cast hr
  have hr0 : (0 : ℚ) ≤ ((num % den : Nat) : ℚ) := Nat.cast_nonneg _
  unfold round_half_even
  simp only
  generalize num / den = q at *
  generalize num % den = r at *
  rw [hnum, abs_le]
  split
  · rename_i h
    have h' : (2 : ℚ) * r < den := by exact_mod_cast h
    constructor <;> linarith
  · split
    · rename_i h1 h
      have h' : (den : ℚ) < 2 * r := by exact_mod_cast h
      push_cast
      constructor <;> linarith
    · rename_i h1 h2
      have heq : 2 * r = den := by omega
      have h' : (2 : ℚ) * r = den := by exact_mod_cast heq
      rcases Nat.mod_two_eq_zero_or_one q with hq | hq
      · rw [hq]; push_cast
        constructor <;> linarith
      · rw [hq]; push_cast
        constructor <;> linarith

theorem double_div_error (n : Int) (d : Nat) (hd : 0 < d) (h53 : n.natAbs < 2 ^ 53) :
    |double_div n d - (n : ℚ) / d| ≤ |(n : ℚ) / d| / 2 ^ 53 := by
  unfold double_div
  by_cases h0 : n = 0
  · subst h0; simp
  · rw [if_neg h0]
    simp only
    have hp : 0 < n.natAbs := Int.natAbs_pos.2 h0
    obtain ⟨hlo, _⟩ := double_scale_spec n.natAbs d hp hd h53
    have hrne := round_half_even_spec (n.natAbs * 2 ^ double_scale n.natAbs d) d hd
    generalize double_scale n.natAbs d = k at *
    generalize round_half_even (n.natAbs * 2 ^ k) d = m at *
    have hD : (0 : ℚ) < d := by exact_mod_cast hd
    have hK : (0 : ℚ) < 2 ^ k := by positivity
    have hP : (0 : ℚ) < (n.natAbs : ℚ) := by exact_mod_cast hp
    have hlo' : (2 : ℚ) ^ 52 * d ≤ (n.natAbs : ℚ) * 2 ^ k := by exact_mod_cast hlo
    push_cast at hrne
    have key : |(m : ℚ) / 2 ^ k - (n.natAbs : ℚ) / d| ≤ ((n.natAbs : ℚ) / d) / 2 ^ 53 := by
      have e : (m : ℚ) / 2 ^ k - (n.natAbs : ℚ) / d
          = ((m : ℚ) * d - n.natAbs * 2 ^ k) / (2 ^ k * d) := by
        field_simp
        try ring
      rw [e, abs_div, abs_of_pos (by positivity : (0 : ℚ) < 2 ^ k * d),
        div_le_iff₀ (by positivity)]
      have e2 : (n.natAbs : ℚ) / d / 2 ^ 53 * (2 ^ k * d) = n.natAbs * 2 ^ k / 2 ^ 53 := by
        field_simp
        try ring
      rw [e2]
      have : (d : ℚ) / 2 ≤ n.natAbs * 2 ^ k / 2 ^ 53 := by
        rw [div_le_div_iff₀ (by norm_num) (by positivity)]
        have e53 : (2 : ℚ) ^ 53 = 2 * 2 ^ 52 := by norm_num
        rw [e53]
        nlinarith
      linarith
    have habs : |(n : ℚ) / d| = (n.natAbs : ℚ) / d := by
      rw [abs_div, abs_of_pos hD, Nat.cast_natAbs, Int.cast_abs]
    rw [habs]
    by_cases hneg : n < 0
    · rw [if_pos hneg]
      have hn : (n : ℚ) = -(n.natAbs : ℚ) := by
        rw [Nat.cast_natAbs, Int.cast_abs, abs_of_neg (by exact_mod_cast hneg)]
        simp
      rw [hn]
      have e3 : -((m : ℚ) / 2 ^ k) - -(n.natAbs : ℚ) / d = -((m : ℚ) / 2 ^ k - (n.natAbs : ℚ) / d) := by
        ring
      rw [e3, abs_neg]
      exact key
    · rw [if_neg hneg]
      have hn : (n : ℚ) = (n.natAbs : ℚ) := by
        rw [Nat.cast_natAbs, Int.cast_abs, abs_of_nonneg (by exact_mod_cast (not_lt.1 hneg))]
      rw [hn]
      exact key

theorem round_half_even_bounds (num den lo hi : Nat) (hd : 0 < den)
    (hlo : lo * den ≤ num) (hhi : num < hi * den) :
    lo ≤ round_half_even num den ∧ round_half_even num den ≤ hi := by
  have h1 : lo ≤ num / den := (Nat.le_div_iff_mul_le hd).2 hlo
  have h2 : num / den < hi := (Nat.div_lt_iff_lt_mul hd).2 hhi
  unfold round_half_even
  simp only
  have hm : (num / den) % 2 ≤ 1 := by omega
  split
  · omega
  · split <;> omega

/-- The value `double_div` gives is a binary64 number of the normal range: a
significand of 53 bits over a power of two within the exponent range. -/
theorem double_div_is_binary64 (n : Int) (d : Nat) (hn : n ≠ 0) (hd : 0 < d)
    (h53 : n.natAbs < 2 ^ 53) (hd2 : d < 2 ^ 1021) :
    ∃ m k : Nat, 2 ^ 52 ≤ m ∧ m ≤ 2 ^ 53 ∧ k ≤ 1074 ∧ |double_div n d| = (m : ℚ) / 2 ^ k := by
  have hp : 0 < n.natAbs := Int.natAbs_pos.2 hn
  obtain ⟨hlo, hhi⟩ := double_scale_spec n.natAbs d hp hd h53
  have hb := round_half_even_bounds (n.natAbs * 2 ^ double_scale n.natAbs d) d (2 ^ 52) (2 ^ 53)
    hd hlo hhi
  refine ⟨round_half_even (n.natAbs * 2 ^ double_scale n.natAbs d) d, double_scale n.natAbs d,
    hb.1, hb.2, ?_, ?_⟩
  · by_contra hk
    have h1 : 2 ^ 1075 ≤ 2 ^ double_scale n.natAbs d :=
      Nat.pow_le_pow_right (by decide) (by omega)
    have h2 : 2 ^ double_scale n.natAbs d ≤ n.natAbs * 2 ^ double_scale n.natAbs d :=
      Nat.le_mul_of_pos_left _ hp
    have h3 : 2 ^ 53 * d < 2 ^ 53 * 2 ^ 1021 := Nat.mul_lt_mul_of_pos_left hd2 (by decide)
    have h4 : (2 : Nat) ^ 53 * 2 ^ 1021 ≤ 2 ^ 1075 := by
      rw [← Nat.pow_add]; exact Nat.pow_le_pow_right (by decide) (by decide)
    omega
  · unfold double_div
    rw [if_neg hn]
    simp only
    have hnn : (0 : ℚ) ≤
        (round_half_even (n.natAbs * 2 ^ double_scale n.natAbs d) d : ℚ) /
          2 ^ double_scale n.natAbs d := by positivity
    split
    · rw [abs_neg, abs_of_nonneg hnn]
    · rw [abs_of_nonneg hnn]

theorem binary64_quotient_intro (n : Int) (d : Nat) (hd : 0 < d) (h53 : n.natAbs < 2 ^ 53) :
    binary64_quotient (double_div n d) n d :=
  ⟨rfl, double_div_error n d hd h53⟩

theorem double_div_5120_100 : double_div 5120 100 = 3602879701896397 / 2 ^ 46 := by
  simp only [double_div]
  rw [show double_scale (5120 : Int).natAbs 100 = 47 from by decide,
    show round_half_even ((5120 : Int).natAbs * 2 ^ 47) 100 = 7205759403792794 from by decide]
  norm_num

theorem double_div_neg150_100 : double_div (-150) 100 = -3 / 2 := by
  simp only [double_div]
  rw [show double_scale (-150 : Int).natAbs 100 = 52 from by decide,
    show round_half_even ((-150 : Int).natAbs * 2 ^ 52) 100 = 6755399441055744 from by decide]
  norm_num

theorem double_div_5300_100 : double_div 5300 100 = 53 := by
  simp only [double_div]
  rw [show double_scale (5300 : Int).natAbs 100 = 47 from by decide,
    show round_half_even ((5300 : Int).natAbs * 2 ^ 47) 100 = 7459086882832384 from by decide]
  norm_num

theorem double_div_50_1000 : double_div 50 1000 = 3602879701896397 / 2 ^ 56 := by
  simp only [double_div]
  rw [show double_scale (50 : Int).natAbs 1000 = 57 from by decide,
    show round_half_even ((50 : Int).natAbs * 2 ^ 57) 1000 = 7205759403792794 from by decide]
  norm_num

theorem double_div_20_1000 : double_div 20 1000 = 5764607523034235 / 2 ^ 58 := by
  simp only [double_div]
  rw [show double_scale (20 : Int).natAbs 1000 = 58 from by decide,
    show round_half_even ((20 : Int).natAbs * 2 ^ 58) 1000 = 5764607523034235 from by decide]
  norm_num

/-! ## The decoder -/

theorem foldl_update_apply {n : Nat} (f : Fin n → Nat) (l : List (Fin n))
    (r : Fin n → Nat) (j : Fin n) :
    (l.foldl (fun r i => Function.update r i (f i)) r) j = if j ∈ l then f j else r j := by
  induction l generalizing r with
  | nil => simp
  | cons a l ih =>
    rw [List.foldl_cons, ih]
    by_cases hj : j ∈ l
    · simp [hj]
    · by_cases hja : j = a
      · subst hja; simp [hj]
      · simp [hj, hja]

/-- The register loop writes every register, whatever was there before. -/
theorem extract_regs_apply (frame : List Byte) (regs : Fin NUM_REGS → Nat)
    (i : Fin NUM_REGS) : extract_regs frame regs i = reg_value frame i.val := by
  unfold extract_regs
  rw [foldl_update_apply (fun i => reg_value frame i.val)]
  simp [List.mem_finRange]

theorem extract_regs_eq (frame : List Byte) (regs : Fin NUM_REGS → Nat) :
    extract_regs frame regs = fun i => reg_value frame i.val :=
  funext (extract_regs_apply frame regs)

theorem reg_value_eq (frame : List Byte) (i : Nat) :
    reg_value frame i = 256 * byte_at frame (3 + 2 * i) + byte_at frame (4 + 2 * i) := by
  unfold reg_value
  rw [shift_or_eq _ _ (byte_at_lt _ _) (byte_at_lt _ _)]
  have h1 : 3 + i * 2 = 3 + 2 * i := by omega
  have h2 : 3 + 2 * i + 1 = 4 + 2 * i := by omega
  rw [h1, h2]

theorem reg_value_lt (frame : List Byte) (i : Nat) : reg_value frame i < 65536 :=
  Nat.mod_lt _ (by decide)

theorem decode_frame_rejects (now : Int) (frame : List Byte)
    (g : Fin MAX_BATTERIES → battery_t)
    (h : byte_at frame 0 = 0 ∨ byte_at frame 0 > MAX_BATTERIES) :
    decode_frame now frame g = g := by
  simp only [decode_frame, dif_pos h]

theorem decode_frame_accepts (now : Int) (frame : List Byte)
    (g : Fin MAX_BATTERIES → battery_t) (k : Fin MAX_BATTERIES)
    (hk : k.val + 1 = byte_at frame 0) :
    decode_frame now frame g = Function.update g k (decoded_entry now frame) := by
  have h : ¬ (byte_at frame 0 = 0 ∨ byte_at frame 0 > MAX_BATTERIES) := by
    have := k.isLt; omega
  have hk2 : (⟨byte_at frame 0 - 1, by omega⟩ : Fin MAX_BATTERIES) = k := by
    apply Fin.ext; simp only; omega
  simp only [decode_frame, dif_neg h, hk2, extract_regs_eq, decoded_entry]
  rfl

theorem sig_at_iff (buf : List Byte) (i : Nat) :
    sig_at buf i = true ↔
      byte_at buf i ≠ 0 ∧ byte_at buf (i + 1) = 3 ∧ byte_at buf (i + 2) = 34 := by
  simp [sig_at, and_assoc]

theorem reg_value_append_left (w t : List Byte) (i : Nat) (h : 3 + i * 2 + 1 < w.length) :
    reg_value (w ++ t) i = reg_value w i := by
  unfold reg_value
  rw [byte_at_append_left w t _ (by omega), byte_at_append_left w t _ h]

/-- The decoder reads the first 37 bytes at `frame` only. -/
theorem decode_frame_append_left (now : Int) (w t : List Byte)
    (g : Fin MAX_BATTERIES → battery_t) (h : w.length = FRAME_LEN) :
    decode_frame now (w ++ t) g = decode_frame now w g := by
  simp only [FRAME_LEN] at h
  have h0 : byte_at (w ++ t) 0 = byte_at w 0 := byte_at_append_left w t 0 (by omega)
  have hr : ∀ i : Fin NUM_REGS, reg_value (w ++ t) i.val = reg_value w i.val := by
    intro i
    have hi : i.val < 17 := i.isLt
    exact reg_value_append_left w t i.val (by omega)
  by_cases hrej : byte_at w 0 = 0 ∨ byte_at w 0 > MAX_BATTERIES
  · rw [decode_frame_rejects now w g hrej, decode_frame_rejects now (w ++ t) g (by rw [h0]; exact hrej)]
  · have hk : byte_at w 0 - 1 < MAX_BATTERIES := by omega
    rw [decode_frame_accepts now w g ⟨byte_at w 0 - 1, hk⟩ (by simp only; omega),
      decode_frame_accepts now (w ++ t) g ⟨byte_at w 0 - 1, hk⟩ (by rw [h0]; simp only; omega)]
    simp only [decoded_entry, h0]
    have e0 := hr 0
    have e2 := hr 2
    have e3 := hr 3
    have e4 := hr 4
    have e5 := hr 5
    have e7 := hr 7
    have e8 := hr 8
    have e13 := hr 13
    have e14 := hr 14
    have ef : (fun i : Fin NUM_REGS => reg_value (w ++ t) i.val) = fun i => reg_value w i.val :=
      funext hr
    simp only [Fin.val_zero] at e0
    change reg_value (w ++ t) 2 = reg_value w 2 at e2
    change reg_value (w ++ t) 3 = reg_value w 3 at e3
    change reg_value (w ++ t) 4 = reg_value w 4 at e4
    change reg_value (w ++ t) 5 = reg_value w 5 at e5
    change reg_value (w ++ t) 7 = reg_value w 7 at e7
    change reg_value (w ++ t) 8 = reg_value w 8 at e8
    change reg_value (w ++ t) 13 = reg_value w 13 at e13
    change reg_value (w ++ t) 14 = reg_value w 14 at e14
    rw [ef, e0, e2, e3, e4, e5, e7, e8, e13, e14]

theorem to_int16_eq (x : Nat) (h : x < 65536) :
    to_int16 x = if x ≥ 32768 then (x : Int) - 65536 else (x : Int) := by
  unfold to_int16
  rw [Nat.mod_eq_of_lt h]
  by_cases hx : x < 32768
  · rw [if_pos hx, if_neg (by omega)]
  · rw [if_neg hx, if_pos (by omega)]

/-- The scaled fields of the entry the decoder writes are binary64 quotients of
the registers of their rows. -/
theorem decoded_entry_quotients (now : Int) (f : List Byte) :
    binary64_quotient (decoded_entry now f).voltage_v ((decoded_entry now f).regs 3 : Int) 100 ∧
    binary64_quotient (decoded_entry now f).current_a
      (if (decoded_entry now f).regs 4 ≥ 32768 then ((decoded_entry now f).regs 4 : Int) - 65536
        else ((decoded_entry now f).regs 4 : Int)) 100 ∧
    binary64_quotient (decoded_entry now f).max_charge_current_a
      ((decoded_entry now f).regs 7 : Int) 1000 ∧
    binary64_quotient (decoded_entry now f).max_discharge_current_a
      ((decoded_entry now f).regs 8 : Int) 1000 ∧
    binary64_quotient (decoded_entry now f).max_charge_voltage_v
      ((decoded_entry now f).regs 14 : Int) 100 := by
  have hreg : ∀ i, ((reg_value f i : Nat) : Int).natAbs < 2 ^ 53 := by
    intro i
    have := reg_value_lt f i
    rw [Int.natAbs_ofNat]
    exact lt_trans this (by decide)
  have hcur : (to_int16 (reg_value f 4)).natAbs < 2 ^ 53 := by
    have h := reg_value_lt f 4
    rw [to_int16_eq _ h]
    have hbig : (65536 : Nat) < 2 ^ 53 := by decide
    split <;> omega
  have h4 : (if (decoded_entry now f).regs 4 ≥ 32768 then
        ((decoded_entry now f).regs 4 : Int) - 65536
      else ((decoded_entry now f).regs 4 : Int)) = to_int16 (reg_value f 4) :=
    (to_int16_eq _ (reg_value_lt f 4)).symm
  rw [h4]
  exact ⟨binary64_quotient_intro _ 100 (by decide) (hreg 3),
    binary64_quotient_intro _ 100 (by decide) hcur,
    binary64_quotient_intro _ 1000 (by decide) (hreg 7),
    binary64_quotient_intro _ 1000 (by decide) (hreg 8),
    binary64_quotient_intro _ 100 (by decide) (hreg 14)⟩

/-- The entry the decoder writes is the reading of the specification's table. -/
theorem decoded_entry_holds (now : Int) (f : List Byte) :
    holds_reading (decoded_entry now f) f := by
  obtain ⟨q1, q2, q3, q4, q5⟩ := decoded_entry_quotients now f
  exact ⟨rfl, rfl, fun i => reg_value_eq f i.val, rfl, rfl, q1, q2, rfl, q3, q4, rfl, q5⟩

/-- A frame-length buffer head with the signature: the head is checked, decoded
if its CRC matches, and dropped. -/
theorem process_buffer_head (clk : Nat → Int) (s : State)
    (hlen : FRAME_LEN ≤ s.g_buf.length) (hsig : sig_at s.g_buf 0 = true) :
    process_buffer clk s =
      process_buffer (fun j => clk (j + 1))
        { g_buf := s.g_buf.drop FRAME_LEN,
          g_batteries :=
            if crc_matches s.g_buf then decode_frame (clk 0) s.g_buf s.g_batteries
            else s.g_batteries } := by
  have hfind : find_signature s.g_buf = some 0 :=
    (find_signature_eq_some _ _).2 ⟨by omega, hsig, fun j hj => absurd hj (Nat.not_lt_zero _)⟩
  rw [process_buffer_some clk s 0 hfind]
  simp only [List.drop_zero]

theorem crc_matches_of_bytes (f : List Byte)
    (hlo : byte_at f 37 = crc16 f 37 % 256) (hhi : byte_at f 38 = crc16 f 37 / 256) :
    crc_matches f = true := by
  rw [crc_matches_iff, hlo, hhi]; omega

/-- A whole valid frame at the head of the buffer is decoded into its entry and
dropped. -/
theorem process_buffer_valid_head (clk : Nat → Int) (f t : List Byte)
    (g : Fin MAX_BATTERIES → battery_t) (k : Fin MAX_BATTERIES)
    (hf : valid_frame f) (hk : k.val + 1 = byte_at f 0) :
    process_buffer clk { g_buf := f ++ t, g_batteries := g } =
      process_buffer (fun j => clk (j + 1))
        { g_buf := t, g_batteries := Function.update g k (decoded_entry (clk 0) f) } := by
  obtain ⟨hlen, h1, h16, hs1, hs2, hlo, hhi⟩ := hf
  have hlen39 : f.length = 39 := hlen
  have hsig : sig_at (f ++ t) 0 = true := by
    rw [sig_at_iff, byte_at_append_left f t 0 (by omega),
      byte_at_append_left f t (0 + 1) (by omega), byte_at_append_left f t (0 + 2) (by omega)]
    exact ⟨by omega, hs1, hs2⟩
  rw [process_buffer_head clk _ (by simp only [List.length_append]; omega) hsig]
  simp only [crc_matches_append_left f t hlen, crc_matches_of_bytes f hlo hhi, if_true,
    decode_frame_append_left _ f t g hlen, decode_frame_accepts _ f g k hk]
  rw [show FRAME_LEN = f.length from hlen.symm, List.drop_left]

/-! ## The claims -/

/-- The frame of slave 5 alone in the buffer: entry 5 is the decoded frame. -/
theorem frame5_entry (clk : Nat → Int) (g : Fin MAX_BATTERIES → battery_t) :
    (process_buffer clk { g_buf := frame5, g_batteries := g }).g_batteries 4 =
      decoded_entry (clk 0) frame5 := by
  have hrun := process_buffer_valid_head clk frame5 [] g 4 (by decide) (by decide)
  rw [List.append_nil] at hrun
  rw [hrun, process_buffer_short _ _ (by simp)]
  simp only [Function.update_same]

/-- C1 fails on the scaled fields: the code holds them in `double`s. For the
frame of slave 5 with register 3 equal to 5120, `voltage_v` is the binary64
number `3602879701896397 / 2^46`, which is neither the exact rational
`regs[3] / 100` nor `51.20`. -/
theorem C1_counterexample :
    frame5.length = 39 ∧ 1 ≤ byte_at frame5 0 ∧ byte_at frame5 0 ≤ 16 ∧
    byte_at frame5 1 = 0x03 ∧ byte_at frame5 2 = 0x22 ∧
    byte_at frame5 37 = crc16 frame5 37 % 256 ∧ byte_at frame5 38 = crc16 frame5 37 / 256 ∧
    (let b := (process_buffer (fun _ => 1700000000)
        { g_buf := frame5, g_batteries := batteries_zero }).g_batteries 4
     b.regs 3 = 5120 ∧ b.voltage_v = 3602879701896397 / 2 ^ 46 ∧
     b.voltage_v ≠ (b.regs 3 : ℚ) / 100 ∧ b.voltage_v ≠ 51.20) := by
  refine ⟨by decide, by decide, by decide, by decide, by decide, by decide, by decide, ?_⟩
  simp only [frame5_entry]
  have hr : (decoded_entry 1700000000 frame5).regs 3 = 5120 := by
    show reg_value frame5 3 = 5120
    decide
  have hv : (decoded_entry 1700000000 frame5).voltage_v = 3602879701896397 / 2 ^ 46 := by
    show double_div (reg_value frame5 3 : Int) 100 = _
    rw [show reg_value frame5 3 = 5120 from by decide]
    exact double_div_5120_100
  refine ⟨hr, hv, ?_, ?_⟩
  · rw [hv, hr]; norm_num
  · rw [hv]; norm_num

/-- C1, amended: a buffer holding exactly one valid 39-byte frame `f` (slave
identifier `f[0]` in 1..16, signature `0x03 0x22`, bytes 37 and 38 the low and
high byte of `crc16` over the first 37 bytes) is emptied by `process_buffer`,
from any table, and entry `f[0]` becomes: valid, `slave_id = f[0]`,
`regs[i] = 256*f[3+2i] + f[4+2i]`, the integer fields the registers of their
rows, and each scaled field the binary64 quotient of its register by 100 or
1000 (the current from the register read as a signed 16-bit value), within a
relative `2^-53` of the exact rational. -/
theorem C1_valid_frame_decoded (f : List Byte) (g : Fin MAX_BATTERIES → battery_t)
    (clk : Nat → Int) (k : Fin MAX_BATTERIES)
    (hlen : f.length = 39) (hk : k.val + 1 = byte_at f 0)
    (hid1 : 1 ≤ byte_at f 0) (hid16 : byte_at f 0 ≤ 16)
    (hs1 : byte_at f 1 = 0x03) (hs2 : byte_at f 2 = 0x22)
    (hlo : byte_at f 37 = crc16 f 37 % 256) (hhi : byte_at f 38 = crc16 f 37 / 256) :
    (process_buffer clk { g_buf := f, g_batteries := g }).g_buf = [] ∧
    (let b := (process_buffer clk { g_buf := f, g_batteries := g }).g_batteries k
     b.valid = 1 ∧ b.slave_id = byte_at f 0 ∧
     (∀ i : Fin NUM_REGS,
        b.regs i = 256 * byte_at f (3 + 2 * i.val) + byte_at f (4 + 2 * i.val)) ∧
     b.cycle_count = (b.regs 0 : Int) ∧
     b.soc_pct = (b.regs 2 : Int) ∧
     b.temperature_c = (b.regs 5 : Int) ∧
     b.soh_pct = (b.regs 13 : Int) ∧
     binary64_quotient b.voltage_v (b.regs 3 : Int) 100 ∧
     binary64_quotient b.current_a
       (if b.regs 4 ≥ 32768 then (b.regs 4 : Int) - 65536 else (b.regs 4 : Int)) 100 ∧
     binary64_quotient b.max_charge_current_a (b.regs 7 : Int) 1000 ∧
     binary64_quotient b.max_discharge_current_a (b.regs 8 : Int) 1000 ∧
     binary64_quotient b.max_charge_voltage_v (b.regs 14 : Int) 100) := by
  have hf : valid_frame f := ⟨hlen, hid1, hid16, hs1, hs2, hlo, hhi⟩
  have hrun := process_buffer_valid_head clk f [] g k hf hk
  rw [List.append_nil] at hrun
  rw [hrun, process_buffer_short _ _ (by simp)]
  refine ⟨rfl, ?_⟩
  simp only [Function.update_same]
  obtain ⟨h1, h2, h3, h4, h5, _, _, h8, _, _, h11, _⟩ := decoded_entry_holds (clk 0) f
  obtain ⟨q1, q2, q3, q4, q5⟩ := decoded_entry_quotients (clk 0) f
  exact ⟨h1, h2, h3, h4, h5, h8, h11, q1, q2, q3, q4, q5⟩

/-- C1, amended, at slave 5 with registers
`[10,0,85,5120,-150,28,0,50,20,0,0,0,0,98,5300,0,0]` (`-150` on the wire as
`0xFF6A`) and its CRC: the buffer is emptied and entry 5 has `soc_pct = 85`,
`temperature_c = 28`, `cycle_count = 10`, `soh_pct = 98`, the 17 registers as
sent, `current_a = -1.50` and `max_charge_voltage_v = 53.00` exactly, and
`voltage_v = 3602879701896397 / 2^46`, the binary64 number nearest `51.20`. -/
theorem C1_valid_frame_decoded_witness :
    frame5.length = 39 ∧ (4 : Fin MAX_BATTERIES).val + 1 = byte_at frame5 0 ∧
    byte_at frame5 1 = 0x03 ∧ byte_at frame5 2 = 0x22 ∧
    byte_at frame5 37 = crc16 frame5 37 % 256 ∧ byte_at frame5 38 = crc16 frame5 37 / 256 ∧
    (process_buffer (fun _ => 1700000000)
      { g_buf := frame5, g_batteries := batteries_zero }).g_buf = [] ∧
    (let b := (process_buffer (fun _ => 1700000000)
        { g_buf := frame5, g_batteries := batteries_zero }).g_batteries 4
     b.valid = 1 ∧ b.slave_id = 5 ∧
     List.ofFn b.regs = [10, 0, 85, 5120, 65386, 28, 0, 50, 20, 0, 0, 0, 0, 98, 5300, 0, 0] ∧
     b.soc_pct = 85 ∧ b.temperature_c = 28 ∧ b.cycle_count = 10 ∧ b.soh_pct = 98 ∧
     b.voltage_v = 3602879701896397 / 2 ^ 46 ∧ |b.voltage_v - 51.20| ≤ 51.20 / 2 ^ 53 ∧
     b.current_a = -1.50 ∧ b.max_charge_voltage_v = 53.00 ∧
     b.max_charge_current_a = 3602879701896397 / 2 ^ 56 ∧
     b.max_discharge_current_a = 5764607523034235 / 2 ^ 58) := by
  have h := C1_valid_frame_decoded frame5 batteries_zero (fun _ => 1700000000) 4
    (by decide) (by decide) (by decide) (by decide) (by decide) (by decide) (by decide)
    (by decide)
  obtain ⟨hbuf, hv, hid, hregs, hcyc, hsoc, htemp, hsoh, hvolt, hcur, hmcc, hmdc, hmcv⟩ := h
  have hr : ∀ i : Fin NUM_REGS,
      ((process_buffer (fun _ => 1700000000)
        { g_buf := frame5, g_batteries := batteries_zero }).g_batteries 4).regs i =
      ([10, 0, 85, 5120, 65386, 28, 0, 50, 20, 0, 0, 0, 0, 98, 5300, 0, 0] : List Nat).getD
        i.val 0 := by
    intro i; rw [hregs i]; revert i; decide
  have r0 := hr 0
  have r2 := hr 2
  have r3 := hr 3
  have r4 := hr 4
  have r5 := hr 5
  have r7 := hr 7
  have r8 := hr 8
  have r13 := hr 13
  have r14 := hr 14
  simp only [Fin.isValue, Fin.val_zero, List.getD_cons_zero] at r0
  rw [show ([10, 0, 85, 5120, 65386, 28, 0, 50, 20, 0, 0, 0, 0, 98, 5300, 0, 0] : List Nat).getD
    (2 : Fin NUM_REGS).val 0 = 85 from rfl] at r2
  rw [show ([10, 0, 85, 5120, 65386, 28, 0, 50, 20, 0, 0, 0, 0, 98, 5300, 0, 0] : List Nat).getD
    (3 : Fin NUM_REGS).val 0 = 5120 from rfl] at r3
  rw [show ([10, 0, 85, 5120, 65386, 28, 0, 50, 20, 0, 0, 0, 0, 98, 5300, 0, 0] : List Nat).getD
    (4 : Fin NUM_REGS).val 0 = 65386 from rfl] at r4
  rw [show ([10, 0, 85, 5120, 65386, 28, 0, 50, 20, 0, 0, 0, 0, 98, 5300, 0, 0] : List Nat).getD
    (5 : Fin NUM_REGS).val 0 = 28 from rfl] at r5
  rw [show ([10, 0, 85, 5120, 65386, 28, 0, 50, 20, 0, 0, 0, 0, 98, 5300, 0, 0] : List Nat).getD
    (7 : Fin NUM_REGS).val 0 = 50 from rfl] at r7
  rw [show ([10, 0, 85, 5120, 65386, 28, 0, 50, 20, 0, 0, 0, 0, 98, 5300, 0, 0] : List Nat).getD
    (8 : Fin NUM_REGS).val 0 = 20 from rfl] at r8
  rw [show ([10, 0, 85, 5120, 65386, 28, 0, 50, 20, 0, 0, 0, 0, 98, 5300, 0, 0] : List Nat).getD
    (13 : Fin NUM_REGS).val 0 = 98 from rfl] at r13
  rw [show ([10, 0, 85, 5120, 65386, 28, 0, 50, 20, 0, 0, 0, 0, 98, 5300, 0, 0] : List Nat).getD
    (14 : Fin NUM_REGS).val 0 = 5300 from rfl] at r14
  have hvolt_bound := hvolt.2
  have hvolt_eq := hvolt.1
  have hcur_eq := hcur.1
  have hmcc_eq := hmcc.1
  have hmdc_eq := hmdc.1
  have hmcv_eq := hmcv.1
  rw [r3] at hvolt_eq hvolt_bound
  rw [r4] at hcur_eq
  rw [r7] at hmcc_eq
  rw [r8] at hmdc_eq
  rw [r14] at hmcv_eq
  refine ⟨by decide, by decide, by decide, by decide, by decide, by decide, hbuf, hv, ?_, ?_,
    ?_, ?_, ?_, ?_, ?_, ?_, ?_, ?_, ?_, ?_⟩
  · rw [hid]; decide
  · rw [funext hr]; decide
  · rw [hsoc, r2]; rfl
  · rw [htemp, r5]; rfl
  · rw [hcyc, r0]; rfl
  · rw [hsoh, r13]; rfl
  · rw [hvolt_eq]; exact double_div_5120_100
  · have e : |((5120 : Nat) : Int) / ((100 : Nat) : ℚ)| = (51.20 : ℚ) := by norm_num
    have e2 : (((5120 : Nat) : Int) : ℚ) / ((100 : Nat) : ℚ) = (51.20 : ℚ) := by norm_num
    rw [e, e2] at hvolt_bound
    exact hvolt_bound
  · rw [hcur_eq]
    have e : (if (65386 : Nat) ≥ 32768 then ((65386 : Nat) : Int) - 65536
        else ((65386 : Nat) : Int)) = -150 := by decide
    rw [e, double_div_neg150_100]; norm_num
  · rw [hmcv_eq]
    exact (show double_div ((5300 : Nat) : Int) 100 = 53.00 from by
      rw [show ((5300 : Nat) : Int) = 5300 from rfl, double_div_5300_100]; norm_num)
  · rw [hmcc_eq]; exact double_div_50_1000
  · rw [hmdc_eq]; exact double_div_20_1000

/-- C3: a candidate frame `w` at the head of the buffer (39 bytes, signature
matched) that is rejected, because the little-endian word in bytes 37, 38 is
not `crc16` of the first 37 bytes or because the slave identifier is above 16,
changes no entry of the table and is consumed: the buffer `w ++ t` with `t`
shorter than a frame becomes `t`. -/
theorem C3_rejected_frame_consumed (w t : List Byte) (g : Fin MAX_BATTERIES → battery_t)
    (clk : Nat → Int)
    (hlen : w.length = 39) (hid : byte_at w 0 ≠ 0)
    (hs1 : byte_at w 1 = 0x03) (hs2 : byte_at w 2 = 0x22) (ht : t.length < 39)
    (hrej : byte_at w 37 + 256 * byte_at w 38 ≠ crc16 w 37 ∨ byte_at w 0 > 16) :
    process_buffer clk { g_buf := w ++ t, g_batteries := g } =
      { g_buf := t, g_batteries := g } := by
  have hsig : sig_at (w ++ t) 0 = true := by
    rw [sig_at_iff, byte_at_append_left w t 0 (by omega),
      byte_at_append_left w t (0 + 1) (by omega), byte_at_append_left w t (0 + 2) (by omega)]
    exact ⟨hid, hs1, hs2⟩
  rw [process_buffer_head clk _ (by simp only [List.length_append, FRAME_LEN]; omega) hsig]
  have hstore : (if crc_matches (w ++ t) then decode_frame (clk 0) (w ++ t) g else g) = g := by
    rw [crc_matches_append_left w t hlen, decode_frame_append_left _ w t g hlen]
    rcases hrej with hcrc | hbig
    · have : crc_matches w = false := by
        rw [← Bool.not_eq_true, crc_matches_iff]; exact hcrc
      simp [this]
    · rw [decode_frame_rejects _ w g (Or.inr hbig)]; simp
  simp only [hstore]
  rw [show FRAME_LEN = w.length from hlen.symm, List.drop_left]
  exact process_buffer_short _ _ ht

/-- C3 at the frame of slave 5 with zeroed CRC bytes, followed by three bytes. -/
theorem C3_rejected_frame_consumed_witness :
    frame5_bad.length = 39 ∧ byte_at frame5_bad 0 ≠ 0 ∧ byte_at frame5_bad 1 = 0x03 ∧
    byte_at frame5_bad 2 = 0x22 ∧ ([1, 2, 3] : List Byte).length < 39 ∧
    (byte_at frame5_bad 37 + 256 * byte_at frame5_bad 38 ≠ crc16 frame5_bad 37 ∨
      byte_at frame5_bad 0 > 16) ∧
    process_buffer (fun _ => 0) { g_buf := frame5_bad ++ [1, 2, 3], g_batteries := batteries_zero } =
      { g_buf := [1, 2, 3], g_batteries := batteries_zero } :=
  ⟨by decide, by decide, by decide, by decide, by decide, Or.inl (by decide),
    C3_rejected_frame_consumed frame5_bad [1, 2, 3] batteries_zero (fun _ => 0)
      (by decide) (by decide) (by decide) (by decide) (by decide) (Or.inl (by decide))⟩

/-- C6: last write wins. For two frames with the same slave identifier in
1..16, decoding the first and then the second gives the table that decoding
the second alone gives (same clock reading for the second), and every entry
other than that slave's is the one the table had. -/
theorem C6_last_write_wins (now1 now2 : Int) (f1 f2 : List Byte)
    (g : Fin MAX_BATTERIES → battery_t)
    (hsame : byte_at f1 0 = byte_at f2 0)
    (hid1 : 1 ≤ byte_at f2 0) (hid16 : byte_at f2 0 ≤ 16) :
    decode_frame now2 f2 (decode_frame now1 f1 g) = decode_frame now2 f2 g ∧
    ∀ k : Fin MAX_BATTERIES, k.val + 1 ≠ byte_at f2 0 →
      decode_frame now2 f2 (decode_frame now1 f1 g) k = g k := by
  have hk : byte_at f2 0 - 1 < MAX_BATTERIES := by simp only [MAX_BATTERIES]; omega
  have hk2 : (⟨byte_at f2 0 - 1, hk⟩ : Fin MAX_BATTERIES).val + 1 = byte_at f2 0 := by
    simp only; omega
  rw [decode_frame_accepts now1 f1 g ⟨byte_at f2 0 - 1, hk⟩ (by rw [hsame]; exact hk2),
    decode_frame_accepts now2 f2 _ ⟨byte_at f2 0 - 1, hk⟩ hk2,
    decode_frame_accepts now2 f2 g ⟨byte_at f2 0 - 1, hk⟩ hk2, Function.update_idem]
  refine ⟨rfl, fun k hne => ?_⟩
  have hkne : k ≠ ⟨byte_at f2 0 - 1, hk⟩ := by
    intro h; apply hne; rw [h]; exact hk2
  rw [Function.update_noteq hkne]

/-- C6 at two frames of slave 5 with different registers. -/
theorem C6_last_write_wins_witness :
    byte_at frame5 0 = byte_at frame5_other 0 ∧ 1 ≤ byte_at frame5_other 0 ∧
    byte_at frame5_other 0 ≤ 16 ∧
    decode_frame 200 frame5_other (decode_frame 100 frame5 batteries_zero) =
      decode_frame 200 frame5_other batteries_zero ∧
    ∀ k : Fin MAX_BATTERIES, k.val + 1 ≠ byte_at frame5_other 0 →
      decode_frame 200 frame5_other (decode_frame 100 frame5 batteries_zero) k =
        batteries_zero k :=
  ⟨by decide, by decide, by decide,
    C6_last_write_wins 100 200 frame5 frame5_other batteries_zero
      (by decide) (by decide) (by decide)⟩

/-- C9 fails at a buffer of exactly 39 bytes: with 39 zero bytes no position
matches the signature, and `process_buffer` leaves all 39 bytes in the buffer,
not the last 38. -/
theorem C9_counterexample :
    39 ≤ (List.replicate 39 (0 : Byte)).length ∧
    (∀ idx, idx + 39 ≤ (List.replicate 39 (0 : Byte)).length →
      sig_at (List.replicate 39 (0 : Byte)) idx = false) ∧
    (process_buffer (fun _ => 0)
      { g_buf := List.replicate 39 0, g_batteries := batteries_zero }).g_buf =
      List.replicate 39 0 ∧
    (process_buffer (fun _ => 0)
      { g_buf := List.replicate 39 0, g_batteries := batteries_zero }).g_buf ≠
      (List.replicate 39 (0 : Byte)).drop ((List.replicate 39 (0 : Byte)).length - 38) := by
  have hno : ∀ idx, idx + 39 ≤ (List.replicate 39 (0 : Byte)).length →
      sig_at (List.replicate 39 (0 : Byte)) idx = false := by
    intro idx h
    have h0 : idx = 0 := by simp only [List.length_replicate] at h; omega
    subst h0; decide
  have hfind : find_signature (List.replicate 39 (0 : Byte)) = none :=
    (find_signature_eq_none _).2 hno
  have hrun := process_buffer_none (fun _ => 0)
    { g_buf := List.replicate 39 0, g_batteries := batteries_zero } (by decide) hfind
  have hnot : ¬ (List.replicate 39 (0 : Byte)).length > FRAME_LEN := by decide
  simp only [hnot, if_false] at hrun
  refine ⟨by decide, hno, by rw [hrun], ?_⟩
  rw [hrun]
  intro h
  have := congrArg List.length h
  simp at this

/-- C9, amended: for a buffer of at least 39 bytes with no signature at any
offset `idx` with `idx + 39 <= length`, `process_buffer` leaves the table
unchanged; a buffer of more than 39 bytes is cut to its last 38 bytes, in
order, and a buffer of exactly 39 bytes is left as it is. -/
theorem C9_no_match_compaction (buf : List Byte) (g : Fin MAX_BATTERIES → battery_t)
    (clk : Nat → Int) (hlen : 39 ≤ buf.length)
    (hno : ∀ idx, idx + 39 ≤ buf.length → sig_at buf idx = false) :
    process_buffer clk { g_buf := buf, g_batteries := g } =
      { g_buf := if buf.length > 39 then buf.drop (buf.length - 38) else buf,
        g_batteries := g } ∧
    (buf.length > 39 → (buf.drop (buf.length - 38)).length = 38) := by
  have hfind : find_signature buf = none := (find_signature_eq_none _).2 hno
  rw [process_buffer_none clk _ hlen hfind]
  refine ⟨?_, fun h => by simp only [List.length_drop]; omega⟩
  by_cases h : buf.length > 39
  · simp only [FRAME_LEN, h, if_true]
  · simp only [FRAME_LEN, h, if_false]

/-- C9, amended, at 40 zero bytes: the last 38 are kept. -/
theorem C9_no_match_compaction_witness :
    39 ≤ (List.replicate 40 (0 : Byte)).length ∧
    (∀ idx, idx + 39 ≤ (List.replicate 40 (0 : Byte)).length →
      sig_at (List.replicate 40 (0 : Byte)) idx = false) ∧
    process_buffer (fun _ => 0)
      { g_buf := List.replicate 40 0, g_batteries := batteries_zero } =
      { g_buf := List.replicate 38 0, g_batteries := batteries_zero } := by
  have hno : ∀ idx, idx + 39 ≤ (List.replicate 40 (0 : Byte)).length →
      sig_at (List.replicate 40 (0 : Byte)) idx = false := by
    intro idx h
    have h0 : idx = 0 ∨ idx = 1 := by simp only [List.length_replicate] at h; omega
    rcases h0 with h0 | h0 <;> subst h0 <;> decide
  refine ⟨by decide, hno, ?_⟩
  rw [(C9_no_match_compaction (List.replicate 40 0) batteries_zero (fun _ => 0)
    (by decide) hno).1]
  rfl

/-- C10: a false signature swallows the valid frame behind it. For a `k`-byte
run `p` (`3 <= k <= 38`) that starts with the signature and a valid frame `F`
behind it, if the first 39 bytes of `p ++ F` fail the CRC check, then
`process_buffer` leaves the table unchanged and leaves the last `k` bytes of
`F` in the buffer: `F` is not decoded. -/
theorem C10_false_signature_swallows (p F : List Byte) (g : Fin MAX_BATTERIES → battery_t)
    (clk : Nat → Int)
    (hk3 : 3 ≤ p.length) (hk38 : p.length ≤ 38)
    (hp0 : byte_at p 0 ≠ 0) (hp1 : byte_at p 1 = 0x03) (hp2 : byte_at p 2 = 0x22)
    (hF : valid_frame F)
    (hcrc : byte_at (p ++ F) 37 + 256 * byte_at (p ++ F) 38 ≠ crc16 (p ++ F) 37) :
    process_buffer clk { g_buf := p ++ F, g_batteries := g } =
      { g_buf := F.drop (39 - p.length), g_batteries := g } ∧
    (F.drop (39 - p.length)).length = p.length := by
  have hFlen : F.length = 39 := hF.1
  have hsig : sig_at (p ++ F) 0 = true := by
    rw [sig_at_iff, byte_at_append_left p F 0 (by omega),
      byte_at_append_left p F (0 + 1) (by omega), byte_at_append_left p F (0 + 2) (by omega)]
    exact ⟨hp0, hp1, hp2⟩
  rw [process_buffer_head clk _ (by simp only [List.length_append, FRAME_LEN]; omega) hsig]
  have hno : crc_matches (p ++ F) = false := by
    rw [← Bool.not_eq_true, crc_matches_iff]; exact hcrc
  have hdrop : (p ++ F).drop FRAME_LEN = F.drop (39 - p.length) := by
    rw [List.drop_append_eq_append_drop, List.drop_eq_nil_of_le (by simp only [FRAME_LEN]; omega)]
    simp only [FRAME_LEN, List.nil_append]
  simp only [hno, hdrop]
  have hl : (F.drop (39 - p.length)).length = p.length := by
    simp only [List.length_drop]; omega
  refine ⟨?_, hl⟩
  exact process_buffer_short _ _ (by simp only [hl, FRAME_LEN]; omega)

/-- C10 at the three signature bytes `01 03 22` in front of the frame of
slave 5: the buffer is left with the last three bytes of that frame and the
table is untouched. -/
theorem C10_false_signature_swallows_witness :
    3 ≤ ([1, 3, 0x22] : List Byte).length ∧ ([1, 3, 0x22] : List Byte).length ≤ 38 ∧
    byte_at [1, 3, 0x22] 0 ≠ 0 ∧ byte_at [1, 3, 0x22] 1 = 0x03 ∧
    byte_at [1, 3, 0x22] 2 = 0x22 ∧ valid_frame frame5 ∧
    byte_at ([1, 3, 0x22] ++ frame5) 37 + 256 * byte_at ([1, 3, 0x22] ++ frame5) 38 ≠
      crc16 ([1, 3, 0x22] ++ frame5) 37 ∧
    process_buffer (fun _ => 0)
      { g_buf := [1, 3, 0x22] ++ frame5, g_batteries := batteries_zero } =
      { g_buf := [0, 20, 134], g_batteries := batteries_zero } := by
  refine ⟨by decide, by decide, by decide, by decide, by decide, by decide, by decide, ?_⟩
  rw [(C10_false_signature_swallows [1, 3, 0x22] frame5 batteries_zero (fun _ => 0)
    (by decide) (by decide) (by decide) (by decide) (by decide) (by decide) (by decide)).1]
  rfl

/-- C5: resynchronisation after noise. For noise `n` with no signature inside
it and two valid frames `A`, `B` of different slaves, `process_buffer` on
`n ++ A ++ B` ends with an empty buffer, the entry of `A`'s slave holding the
registers and derived fields of `A`, the entry of `B`'s slave those of `B`, and
every other entry as it was. -/
theorem C5_resync_after_noise (n A B : List Byte) (g : Fin MAX_BATTERIES → battery_t)
    (clk : Nat → Int) (ka kb : Fin MAX_BATTERIES)
    (hn : ∀ i, i + 2 < n.length →
      ¬ (byte_at n i ≠ 0 ∧ byte_at n (i + 1) = 0x03 ∧ byte_at n (i + 2) = 0x22))
    (hA : valid_frame A) (hB : valid_frame B)
    (hka : ka.val + 1 = byte_at A 0) (hkb : kb.val + 1 = byte_at B 0)
    (hne : byte_at A 0 ≠ byte_at B 0)
    (_hsize : (n ++ A ++ B).length ≤ 4096) :
    (process_buffer clk { g_buf := n ++ A ++ B, g_batteries := g }).g_buf = [] ∧
    holds_reading ((process_buffer clk { g_buf := n ++ A ++ B, g_batteries := g }).g_batteries ka) A ∧
    holds_reading ((process_buffer clk { g_buf := n ++ A ++ B, g_batteries := g }).g_batteries kb) B ∧
    ∀ k : Fin MAX_BATTERIES, k ≠ ka → k ≠ kb →
      (process_buffer clk { g_buf := n ++ A ++ B, g_batteries := g }).g_batteries k = g k := by
  have hAlen : A.length = 39 := hA.1
  have hBlen : B.length = 39 := hB.1
  have hA1 : byte_at A 1 = 3 := hA.2.2.2.1
  have hA2 : byte_at A 2 = 34 := hA.2.2.2.2.1
  have hA0 : 1 ≤ byte_at A 0 := hA.2.1
  have hA16 : byte_at A 0 ≤ 16 := hA.2.2.1
  have hbuf : n ++ A ++ B = n ++ (A ++ B) := List.append_assoc n A B
  -- bytes of the buffer at and after the end of the noise
  have hat : ∀ j, byte_at (n ++ (A ++ B)) (n.length + j) = byte_at (A ++ B) j := by
    intro j
    have := byte_at_drop (n ++ (A ++ B)) n.length j
    rw [List.drop_left] at this
    exact this.symm
  have hin : ∀ j, j < n.length → byte_at (n ++ (A ++ B)) j = byte_at n j :=
    fun j hj => byte_at_append_left n (A ++ B) j hj
  have hAB : ∀ j, j < 39 → byte_at (A ++ B) j = byte_at A j :=
    fun j hj => byte_at_append_left A B j (by omega)
  -- the first signature is at the start of `A`
  have hfind : find_signature (n ++ (A ++ B)) = some n.length := by
    rw [find_signature_eq_some]
    refine ⟨by simp only [List.length_append, FRAME_LEN]; omega, ?_, ?_⟩
    · rw [sig_at_iff]
      have e0 := hat 0
      have e1 := hat 1
      have e2 := hat 2
      rw [hAB 0 (by omega)] at e0
      rw [hAB 1 (by omega)] at e1
      rw [hAB 2 (by omega)] at e2
      rw [Nat.add_zero] at e0
      rw [e0, e1, e2]
      exact ⟨by omega, hA1, hA2⟩
    · intro j hj
      rw [← Bool.not_eq_true, sig_at_iff]
      rintro ⟨h0, h1, h2⟩
      by_cases hj2 : j + 2 < n.length
      · apply hn j hj2
        rw [← hin j hj, ← hin (j + 1) (by omega), ← hin (j + 2) hj2]
        exact ⟨h0, h1, h2⟩
      · by_cases hj1 : j + 1 < n.length
        · have hj2eq : j + 2 = n.length + 0 := by omega
          rw [hj2eq, hat 0, hAB 0 (by omega)] at h2
          omega
        · have hj2eq : j + 2 = n.length + 1 := by omega
          rw [hj2eq, hat 1, hAB 1 (by omega)] at h2
          omega
  have hrun : process_buffer clk { g_buf := n ++ A ++ B, g_batteries := g } =
      { g_buf := [],
        g_batteries := Function.update (Function.update g ka (decoded_entry (clk 0) A)) kb
          (decoded_entry (clk 1) B) } := by
    rw [hbuf, process_buffer_some clk _ n.length hfind]
    simp only [List.drop_left]
    have hAcrc : crc_matches (A ++ B) = true := by
      rw [crc_matches_append_left A B hA.1]
      exact crc_matches_of_bytes A hA.2.2.2.2.2.1 hA.2.2.2.2.2.2
    have hdropA : (A ++ B).drop FRAME_LEN = B := by
      rw [show FRAME_LEN = A.length from hA.1.symm, List.drop_left]
    simp only [hAcrc, if_true, hdropA, decode_frame_append_left _ A B g hA.1,
      decode_frame_accepts _ A g ka hka]
    have hsecond := process_buffer_valid_head (fun j => clk (j + 1)) B []
      (Function.update g ka (decoded_entry (clk 0) A)) kb hB hkb
    rw [List.append_nil] at hsecond
    rw [hsecond, process_buffer_short _ _ (by simp)]
  have hkne : ka ≠ kb := by
    intro h; apply hne; rw [← hka, ← hkb, h]
  rw [hrun]
  refine ⟨rfl, ?_, ?_, ?_⟩
  · simp only [Function.update_noteq hkne, Function.update_same]
    exact decoded_entry_holds _ A
  · simp only [Function.update_same]
    exact decoded_entry_holds _ B
  · intro k h1 h2
    simp only [Function.update_noteq h2, Function.update_noteq h1]

/-- C5 at six noise bytes, the frame of slave 5 and the frame of slave 7. -/
theorem C5_resync_after_noise_witness :
    (∀ i, i + 2 < noise6.length →
      ¬ (byte_at noise6 i ≠ 0 ∧ byte_at noise6 (i + 1) = 0x03 ∧ byte_at noise6 (i + 2) = 0x22)) ∧
    valid_frame frame5 ∧ valid_frame frame7 ∧
    (4 : Fin MAX_BATTERIES).val + 1 = byte_at frame5 0 ∧
    (6 : Fin MAX_BATTERIES).val + 1 = byte_at frame7 0 ∧
    byte_at frame5 0 ≠ byte_at frame7 0 ∧ (noise6 ++ frame5 ++ frame7).length ≤ 4096 ∧
    (process_buffer (fun _ => 0)
      { g_buf := noise6 ++ frame5 ++ frame7, g_batteries := batteries_zero }).g_buf = [] ∧
    holds_reading ((process_buffer (fun _ => 0)
      { g_buf := noise6 ++ frame5 ++ frame7, g_batteries := batteries_zero }).g_batteries 4)
      frame5 ∧
    holds_reading ((process_buffer (fun _ => 0)
      { g_buf := noise6 ++ frame5 ++ frame7, g_batteries := batteries_zero }).g_batteries 6)
      frame7 ∧
    ∀ k : Fin MAX_BATTERIES, k ≠ 4 → k ≠ 6 →
      (process_buffer (fun _ => 0)
        { g_buf := noise6 ++ frame5 ++ frame7, g_batteries := batteries_zero }).g_batteries k =
        batteries_zero k := by
  have hn : ∀ i, i + 2 < noise6.length →
      ¬ (byte_at noise6 i ≠ 0 ∧ byte_at noise6 (i + 1) = 0x03 ∧
        byte_at noise6 (i + 2) = 0x22) := by
    intro i hi
    have hi4 : i < 4 := by
      have : noise6.length = 6 := rfl
      omega
    interval_cases i <;> decide
  exact ⟨hn, by decide, by decide, by decide, by decide, by decide, by decide,
    C5_resync_after_noise noise6 frame5 frame7 batteries_zero (fun _ => 0) 4 6 hn
      (by decide) (by decide) (by decide) (by decide) (by decide) (by decide)⟩

/-! ## The main loop: buffer bound -/

theorem process_buffer_length_le (n : Nat) :
    ∀ (clk : Nat → Int) (s : State), s.g_buf.length ≤ n →
      (process_buffer clk s).g_buf.length ≤ s.g_buf.length := by
  induction n with
  | zero =>
    intro clk s h
    rw [process_buffer_short clk s (by simp only [FRAME_LEN]; omega)]
  | succ n ih =>
    intro clk s h
    by_cases hlen : s.g_buf.length < FRAME_LEN
    · rw [process_buffer_short clk s hlen]
    · cases hfind : find_signature s.g_buf with
      | none =>
        rw [process_buffer_none clk s (by omega) hfind]
        split
        · simp only [List.length_drop]; omega
        · exact le_refl _
      | some idx =>
        have hidx := ((find_signature_eq_some _ _).1 hfind).1
        rw [process_buffer_some clk s idx hfind]
        refine le_trans (ih _ _ ?_) ?_
        · simp only [List.length_drop, FRAME_LEN] at *; omega
        · simp only [List.length_drop]; omega

theorem discard_count_le (n buflen : Nat) (hn : n ≤ 256) (hb : buflen ≤ BUF_SIZE) :
    discard_count n buflen ≤ buflen := by
  unfold discard_count
  simp only [BUF_SIZE] at *
  split <;> omega

theorem append_chunk_length_le (tmp buf : List Byte) (hn : tmp.length ≤ 256)
    (hb : buf.length ≤ BUF_SIZE) : (append_chunk tmp buf).length ≤ BUF_SIZE := by
  unfold append_chunk discard_count
  simp only [BUF_SIZE, List.length_append, List.length_drop] at *
  split <;> omega

/-- What one pass of the main loop does: it leaves the buffer, the table,
`last_write` and the list of writes alone (interrupted or failed `read`, no
bytes, loop already left), or it appends a chunk and runs `process_buffer`, and
then either writes the snapshot (the clock differs from `last_write` and an
entry is valid) or does not. -/
theorem main_iter_cases (m : MainState) (it : Iteration) :
    ((main_iter m it).st = m.st ∧ (main_iter m it).last_write = m.last_write ∧
      (main_iter m it).writes = m.writes) ∨
    (∃ tmp, it.read = .data tmp ∧ tmp.length ≠ 0 ∧ m.exited = false ∧
      (main_iter m it).st = process_buffer it.clk
        { g_buf := append_chunk tmp m.st.g_buf, g_batteries := m.st.g_batteries } ∧
      ((it.now ≠ m.last_write ∧ any_valid (main_iter m it).st.g_batteries = true ∧
          (main_iter m it).last_write = it.now ∧
          (main_iter m it).writes = it.now :: m.writes) ∨
       (¬ (it.now ≠ m.last_write ∧ any_valid (main_iter m it).st.g_batteries = true) ∧
          (main_iter m it).last_write = m.last_write ∧
          (main_iter m it).writes = m.writes))) := by
  by_cases hex : m.exited = true
  · left; simp [main_iter, hex]
  · cases hread : it.read with
    | error e =>
      left
      cases e <;> simp [main_iter, hex, hread]
    | data tmp =>
      by_cases hlen : tmp.length = 0
      · left; simp [main_iter, hex, hread, hlen]
      · right
        refine ⟨tmp, rfl, hlen, by simpa using hex, ?_⟩
        by_cases hnow : it.now = m.last_write
        · simp [main_iter, hex, hread, hlen, hnow]
        · by_cases hv : any_valid (process_buffer it.clk
              { g_buf := append_chunk tmp m.st.g_buf, g_batteries := m.st.g_batteries }).g_batteries
              = true
          · simp [main_iter, hex, hread, hlen, hnow, hv]
          · simp [main_iter, hex, hread, hlen, hnow, hv]

theorem main_iter_length_le (m : MainState) (it : Iteration)
    (hit : ∀ tmp, it.read = .data tmp → tmp.length ≤ 256)
    (hb : m.st.g_buf.length ≤ BUF_SIZE) : (main_iter m it).st.g_buf.length ≤ BUF_SIZE := by
  rcases main_iter_cases m it with ⟨hst, _, _⟩ | ⟨tmp, hread, _, _, hst, _⟩
  · rw [hst]; exact hb
  · rw [hst]
    have h1 := append_chunk_length_le tmp m.st.g_buf (hit tmp hread) hb
    have h2 := process_buffer_length_le _ it.clk
      { g_buf := append_chunk tmp m.st.g_buf, g_batteries := m.st.g_batteries } (le_refl _)
    exact le_trans h2 h1

theorem main_loop_length_le (its : List Iteration) :
    ∀ (m : MainState), (∀ it ∈ its, ∀ tmp, it.read = .data tmp → tmp.length ≤ 256) →
      m.st.g_buf.length ≤ BUF_SIZE → (main_loop m its).st.g_buf.length ≤ BUF_SIZE := by
  induction its with
  | nil => intro m _ hb; exact hb
  | cons it its ih =>
    intro m hits hb
    rw [main_loop, List.foldl_cons]
    exact ih _ (fun it2 h2 => hits it2 (List.mem_cons_of_mem _ h2))
      (main_iter_length_le m it (hits it (List.mem_cons_self _ _)) hb)

/-- C7: over every run of the main loop from the empty buffer, with chunks of
at most 256 bytes as `read` gives them, the buffer holds at most `BUF_SIZE =
4096` bytes after every cycle of append and `process_buffer`, and the number of
bytes dropped ahead of an append never exceeds the buffer length. -/
theorem C7_buffer_bounded (g : Fin MAX_BATTERIES → battery_t) (its : List Iteration)
    (hits : ∀ it ∈ its, ∀ tmp, it.read = .data tmp → 1 ≤ tmp.length ∧ tmp.length ≤ 256) :
    ∀ j : Nat,
      (main_loop (MainState.init g) (its.take j)).st.g_buf.length ≤ BUF_SIZE ∧
      ∀ it tmp, its[j]? = some it → it.read = .data tmp →
        discard_count tmp.length (main_loop (MainState.init g) (its.take j)).st.g_buf.length ≤
          (main_loop (MainState.init g) (its.take j)).st.g_buf.length ∧
        (append_chunk tmp (main_loop (MainState.init g) (its.take j)).st.g_buf).length ≤
          BUF_SIZE := by
  intro j
  have hb : (main_loop (MainState.init g) (its.take j)).st.g_buf.length ≤ BUF_SIZE := by
    apply main_loop_length_le
    · intro it hit tmp hread
      exact (hits it (List.mem_of_mem_take hit) tmp hread).2
    · simp [MainState.init]
  refine ⟨hb, fun it tmp hj hread => ?_⟩
  have hmem : it ∈ its := List.getElem?_mem hj
  have hlen := (hits it hmem tmp hread).2
  exact ⟨discard_count_le _ _ hlen hb, append_chunk_length_le _ _ hlen hb⟩

/-- C7 at a run of two passes, each reading one 39-byte frame, looked at after
the first pass: the buffer is within its capacity, and appending the second
chunk drops no more bytes than the buffer holds. -/
theorem C7_buffer_bounded_witness :
    (∀ it ∈ run_second_100, ∀ tmp, it.read = .data tmp → 1 ≤ tmp.length ∧ tmp.length ≤ 256) ∧
    (main_loop (MainState.init batteries_zero) (run_second_100.take 1)).st.g_buf.length ≤
      BUF_SIZE ∧
    discard_count frame7.length
        (main_loop (MainState.init batteries_zero) (run_second_100.take 1)).st.g_buf.length ≤
      (main_loop (MainState.init batteries_zero) (run_second_100.take 1)).st.g_buf.length ∧
    (append_chunk frame7
      (main_loop (MainState.init batteries_zero) (run_second_100.take 1)).st.g_buf).length ≤
      BUF_SIZE := by
  have hits : ∀ it ∈ run_second_100, ∀ tmp, it.read = .data tmp →
      1 ≤ tmp.length ∧ tmp.length ≤ 256 := by
    intro it hit tmp hread
    simp only [run_second_100, List.mem_cons, List.mem_singleton, List.not_mem_nil, or_false]
      at hit
    rcases hit with rfl | rfl
    · cases hread; decide
    · cases hread; decide
  have h := C7_buffer_bounded batteries_zero run_second_100 hits 1
  exact ⟨hits, h.1, h.2 _ frame7 rfl rfl⟩

/-! ## The main loop: snapshot throttle -/

theorem main_loop_append (m : MainState) (a b : List Iteration) :
    main_loop m (a ++ b) = main_loop (main_loop m a) b := by
  simp only [main_loop, List.foldl_append]

theorem main_loop_cons (m : MainState) (it : Iteration) (its : List Iteration) :
    main_loop m (it :: its) = main_loop (main_iter m it) its := rfl

theorem main_loop_take_succ (m : MainState) (its : List Iteration) (j : Nat) (it : Iteration)
    (hj : its[j]? = some it) :
    main_loop m (its.take (j + 1)) = main_iter (main_loop m (its.take j)) it := by
  rw [List.take_succ, hj, main_loop_append]
  rfl

/-- A pass that reads a non-empty chunk while the loop runs. -/
theorem main_iter_data (m : MainState) (it : Iteration) (tmp : List Byte)
    (hex : m.exited = false) (hread : it.read = .data tmp) (hlen : tmp.length ≠ 0) :
    (main_iter m it).exited = false ∧
    (main_iter m it).st = process_buffer it.clk
      { g_buf := append_chunk tmp m.st.g_buf, g_batteries := m.st.g_batteries } ∧
    ((it.now ≠ m.last_write ∧ any_valid (main_iter m it).st.g_batteries = true ∧
        (main_iter m it).last_write = it.now ∧
        (main_iter m it).writes = it.now :: m.writes) ∨
     (¬ (it.now ≠ m.last_write ∧ any_valid (main_iter m it).st.g_batteries = true) ∧
        (main_iter m it).last_write = m.last_write ∧
        (main_iter m it).writes = m.writes)) := by
  by_cases hnow : it.now = m.last_write
  · simp [main_iter, hex, hread, hlen, hnow]
  · by_cases hv : any_valid (process_buffer it.clk
        { g_buf := append_chunk tmp m.st.g_buf, g_batteries := m.st.g_batteries }).g_batteries
        = true
    · simp [main_iter, hex, hread, hlen, hnow, hv]
    · simp [main_iter, hex, hread, hlen, hnow, hv]

theorem writes_ok_iter (m : MainState) (it : Iteration) (hok : writes_ok m)
    (hle : ∀ w ∈ m.writes, w ≤ it.now) :
    writes_ok (main_iter m it) ∧ ∀ w ∈ (main_iter m it).writes, w ≤ it.now := by
  obtain ⟨hnd, hlw, hlast⟩ := hok
  rcases main_iter_cases m it with ⟨_, h2, h3⟩ | ⟨tmp, _, _, _, _, hw | hw⟩
  · exact ⟨⟨by rw [h3]; exact hnd, by rw [h2, h3]; exact hlw, by rw [h2, h3]; exact hlast⟩,
      by rw [h3]; exact hle⟩
  · obtain ⟨hne, _, h2, h3⟩ := hw
    have hnotin : it.now ∉ m.writes := by
      intro hin
      rcases hlast with ⟨hnil, _⟩ | hmem
      · rw [hnil] at hin; cases hin
      · exact hne (le_antisymm (hlw _ hin) (hle _ hmem))
    refine ⟨⟨by rw [h3]; exact List.nodup_cons.2 ⟨hnotin, hnd⟩, ?_, ?_⟩, ?_⟩
    · rw [h2, h3]
      intro w hw
      rcases List.mem_cons.1 hw with rfl | hw
      · exact le_refl _
      · exact hle w hw
    · right; rw [h2, h3]; exact List.mem_cons_self _ _
    · rw [h3]
      intro w hw
      rcases List.mem_cons.1 hw with rfl | hw
      · exact le_refl _
      · exact hle w hw
  · obtain ⟨_, h2, h3⟩ := hw
    exact ⟨⟨by rw [h3]; exact hnd, by rw [h2, h3]; exact hlw, by rw [h2, h3]; exact hlast⟩,
      by rw [h3]; exact hle⟩

theorem writes_ok_loop (its : List Iteration) :
    ∀ (m : MainState), List.Pairwise (· ≤ ·) (its.map Iteration.now) → writes_ok m →
      (∀ w ∈ m.writes, ∀ it ∈ its, w ≤ it.now) → writes_ok (main_loop m its) := by
  induction its with
  | nil => intro m _ hok _; exact hok
  | cons it its ih =>
    intro m hmono hok hle
    rw [List.map_cons, List.pairwise_cons] at hmono
    have hstep := writes_ok_iter m it hok (fun w hw => hle w hw it (List.mem_cons_self _ _))
    rw [main_loop_cons]
    refine ih _ hmono.2 hstep.1 (fun w hw it2 hit2 => ?_)
    exact le_trans (hstep.2 w hw) (hmono.1 _ (List.mem_map_of_mem _ hit2))

theorem writes_ok_init (g : Fin MAX_BATTERIES → battery_t) : writes_ok (MainState.init g) :=
  ⟨List.nodup_nil, fun _ h => (by cases h), Or.inl ⟨rfl, rfl⟩⟩

theorem mem_writes_iter (m : MainState) (it : Iteration) (w : Int) (h : w ∈ m.writes) :
    w ∈ (main_iter m it).writes := by
  rcases main_iter_cases m it with ⟨_, _, h3⟩ | ⟨tmp, _, _, _, _, hw | hw⟩
  · rw [h3]; exact h
  · rw [hw.2.2.2]; exact List.mem_cons_of_mem _ h
  · rw [hw.2.2]; exact h

theorem mem_writes_loop (its : List Iteration) :
    ∀ (m : MainState) (w : Int), w ∈ m.writes → w ∈ (main_loop m its).writes := by
  induction its with
  | nil => intro m w h; exact h
  | cons it its ih =>
    intro m w h
    rw [main_loop_cons]
    exact ih _ w (mem_writes_iter m it w h)

/-- A second other than 0 that a pass observes with a valid entry is among the
written seconds after that pass. -/
theorem observed_second_written (g : Fin MAX_BATTERIES → battery_t) (its : List Iteration)
    (hmono : List.Pairwise (· ≤ ·) (its.map Iteration.now)) (t : Int) (j : Nat)
    (ht : t ≠ 0) (hobs : observes_valid g its j t) :
    t ∈ (main_loop (MainState.init g) its).writes := by
  obtain ⟨it, tmp, hj, hread, hlen, hnow, hex, hvalid⟩ := hobs
  have hsplit : its = its.take (j + 1) ++ its.drop (j + 1) := (List.take_append_drop _ _).symm
  have hokj : writes_ok (main_loop (MainState.init g) (its.take j)) := by
    apply writes_ok_loop _ _ _ (writes_ok_init g)
    · intro w hw; cases hw
    · rw [List.map_take]
      exact List.Pairwise.sublist (List.take_sublist _ _) hmono
  rw [hsplit, main_loop_append]
  apply mem_writes_loop
  rw [main_loop_take_succ _ _ _ _ hj] at hvalid ⊢
  obtain ⟨_, _, hw | hw⟩ := main_iter_data _ it tmp hex hread hlen
  · rw [hw.2.2.2, hnow]; exact List.mem_cons_self _ _
  · obtain ⟨hnot, _, h3⟩ := hw
    have heq : it.now = (main_loop (MainState.init g) (its.take j)).last_write := by
      by_contra hne
      exact hnot ⟨hne, hvalid⟩
    rw [h3]
    rcases hokj.2.2 with ⟨_, h0⟩ | hmem
    · exact absurd (by rw [← hnow, heq, h0]) ht
    · rw [← hnow, heq]; exact hmem

/-- C8, amended: over every run of passes of the main loop from start-up whose
clock readings are non-decreasing, the snapshot is written at most once per
distinct second, and only in a pass after which an entry of the table is valid;
and when two passes observe the same second `t` with valid entries and `t` is
not 0 (the initial value of `last_write`), exactly one write carries that
second. -/
theorem C8_snapshot_throttle (g : Fin MAX_BATTERIES → battery_t) (its : List Iteration)
    (hmono : List.Pairwise (· ≤ ·) (its.map Iteration.now)) :
    (∀ t, (main_loop (MainState.init g) its).writes.count t ≤ 1) ∧
    (∀ (m : MainState) (it : Iteration), (main_iter m it).writes ≠ m.writes →
      (main_iter m it).writes = it.now :: m.writes ∧ it.now ≠ m.last_write ∧
        any_valid (main_iter m it).st.g_batteries = true) ∧
    (∀ (t : Int) (j1 j2 : Nat), t ≠ 0 → j1 < j2 →
      observes_valid g its j1 t → observes_valid g its j2 t →
      (main_loop (MainState.init g) its).writes.count t = 1) := by
  have hok : writes_ok (main_loop (MainState.init g) its) :=
    writes_ok_loop its _ hmono (writes_ok_init g) (fun w hw => by cases hw)
  have hcount : ∀ t, (main_loop (MainState.init g) its).writes.count t ≤ 1 :=
    fun t => List.nodup_iff_count_le_one.1 hok.1 t
  refine ⟨hcount, ?_, ?_⟩
  · intro m it hne
    rcases main_iter_cases m it with ⟨_, _, h3⟩ | ⟨tmp, _, _, _, _, hw | hw⟩
    · exact absurd h3 hne
    · exact ⟨hw.2.2.2, hw.1, hw.2.1⟩
    · exact absurd hw.2.2 hne
  · intro t j1 j2 ht _ h1 _
    have hmem := observed_second_written g its hmono t j1 ht h1
    have hpos : 0 < (main_loop (MainState.init g) its).writes.count t :=
      List.count_pos_iff.2 hmem
    have := hcount t
    omega

theorem any_valid_of_entry (g : Fin MAX_BATTERIES → battery_t) (k : Fin MAX_BATTERIES)
    (h : (g k).valid ≠ 0) : any_valid g = true := by
  unfold any_valid
  rw [List.any_eq_true]
  exact ⟨k, List.mem_finRange k, by simpa using h⟩

/-- A pass that reads exactly one valid frame into an empty buffer decodes it
and leaves the buffer empty. -/
theorem main_iter_valid_frame (m : MainState) (it : Iteration) (f : List Byte)
    (k : Fin MAX_BATTERIES) (hex : m.exited = false) (hread : it.read = .data f)
    (hf : valid_frame f) (hk : k.val + 1 = byte_at f 0) (hbuf : m.st.g_buf = []) :
    (main_iter m it).exited = false ∧
    (main_iter m it).st =
      { g_buf := [],
        g_batteries := Function.update m.st.g_batteries k (decoded_entry (it.clk 0) f) } ∧
    any_valid (main_iter m it).st.g_batteries = true := by
  have hlen : f.length ≠ 0 := by
    have : f.length = 39 := hf.1
    omega
  obtain ⟨h1, h2, _⟩ := main_iter_data m it f hex hread hlen
  have happ : append_chunk f m.st.g_buf = f ++ [] := by
    rw [hbuf]; simp [append_chunk]
  have hst : (main_iter m it).st =
      { g_buf := [],
        g_batteries := Function.update m.st.g_batteries k (decoded_entry (it.clk 0) f) } := by
    rw [h2, happ, process_buffer_valid_head it.clk f [] m.st.g_batteries k hf hk,
      process_buffer_short _ _ (by simp)]
  refine ⟨h1, hst, ?_⟩
  rw [hst]
  apply any_valid_of_entry _ k
  simp only [Function.update_same]
  show (1 : Int) ≠ 0
  decide

theorem main_iter_same_second (m : MainState) (it : Iteration) (h : it.now = m.last_write) :
    (main_iter m it).writes = m.writes ∧ (main_iter m it).last_write = m.last_write := by
  rcases main_iter_cases m it with ⟨_, h2, h3⟩ | ⟨tmp, _, _, _, _, hw | hw⟩
  · exact ⟨h3, h2⟩
  · exact absurd h hw.1
  · exact ⟨hw.2.2, hw.2.1⟩

/-- A run of two passes, each reading one valid frame: both passes observe their
clock reading with a valid entry in the table. -/
theorem observes_valid_two_frames (g : Fin MAX_BATTERIES → battery_t) (it1 it2 : Iteration)
    (f1 f2 : List Byte) (k1 k2 : Fin MAX_BATTERIES)
    (hr1 : it1.read = .data f1) (hr2 : it2.read = .data f2)
    (hf1 : valid_frame f1) (hf2 : valid_frame f2)
    (hk1 : k1.val + 1 = byte_at f1 0) (hk2 : k2.val + 1 = byte_at f2 0) :
    observes_valid g [it1, it2] 0 it1.now ∧ observes_valid g [it1, it2] 1 it2.now := by
  have hl1 : f1.length ≠ 0 := by
    have : f1.length = 39 := hf1.1
    omega
  have hl2 : f2.length ≠ 0 := by
    have : f2.length = 39 := hf2.1
    omega
  have h1 := main_iter_valid_frame (MainState.init g) it1 f1 k1 rfl hr1 hf1 hk1 rfl
  have h2 := main_iter_valid_frame (main_iter (MainState.init g) it1) it2 f2 k2 h1.1 hr2 hf2 hk2
    (by rw [h1.2.1])
  exact ⟨⟨it1, f1, rfl, hr1, hl1, rfl, rfl, h1.2.2⟩, ⟨it2, f2, rfl, hr2, hl2, rfl, h1.1, h2.2.2⟩⟩

/-- C8 fails at second 0: two passes, each decoding a valid frame, both observe
the clock reading 0 (the initial value of `last_write`); the readings are
non-decreasing, yet no snapshot is written for that second. -/
theorem C8_counterexample :
    List.Pairwise (· ≤ ·) (run_second_0.map Iteration.now) ∧
    observes_valid batteries_zero run_second_0 0 0 ∧
    observes_valid batteries_zero run_second_0 1 0 ∧
    (main_loop (MainState.init batteries_zero) run_second_0).writes.count 0 = 0 ∧
    (main_loop (MainState.init batteries_zero) run_second_0).writes.count 0 ≠ 1 := by
  have hobs := observes_valid_two_frames batteries_zero
    { read := .data frame5, clk := fun _ => 0, now := 0 }
    { read := .data frame7, clk := fun _ => 0, now := 0 } frame5 frame7 4 6 rfl rfl
    (by decide) (by decide) (by decide) (by decide)
  have hw1 := main_iter_same_second (MainState.init batteries_zero)
    { read := .data frame5, clk := fun _ => 0, now := 0 } rfl
  have hw2 := main_iter_same_second
    (main_iter (MainState.init batteries_zero)
      { read := .data frame5, clk := fun _ => 0, now := 0 })
    { read := .data frame7, clk := fun _ => 0, now := 0 } (by rw [hw1.2]; rfl)
  have hwrites : (main_loop (MainState.init batteries_zero) run_second_0).writes = [] := by
    have hrun : main_loop (MainState.init batteries_zero) run_second_0 =
        main_iter (main_iter (MainState.init batteries_zero)
          { read := .data frame5, clk := fun _ => 0, now := 0 })
          { read := .data frame7, clk := fun _ => 0, now := 0 } := rfl
    rw [hrun, hw2.1, hw1.1]; rfl
  refine ⟨?_, hobs.1, hobs.2, ?_, ?_⟩
  · simp [run_second_0]
  · rw [hwrites]; rfl
  · rw [hwrites]; decide

/-- C8, amended, at two passes within second 100, each decoding a valid frame:
one write carries second 100. -/
theorem C8_snapshot_throttle_witness :
    List.Pairwise (· ≤ ·) (run_second_100.map Iteration.now) ∧
    (100 : Int) ≠ 0 ∧ (0 : Nat) < 1 ∧
    observes_valid batteries_zero run_second_100 0 100 ∧
    observes_valid batteries_zero run_second_100 1 100 ∧
    (main_loop (MainState.init batteries_zero) run_second_100).writes.count 100 = 1 := by
  have hmono : List.Pairwise (· ≤ ·) (run_second_100.map Iteration.now) := by
    simp [run_second_100]
  have hobs := observes_valid_two_frames batteries_zero
    { read := .data frame5, clk := fun _ => 100, now := 100 }
    { read := .data frame7, clk := fun _ => 100, now := 100 } frame5 frame7 4 6 rfl rfl
    (by decide) (by decide) (by decide) (by decide)
  exact ⟨hmono, by decide, by decide, hobs.1, hobs.2,
    (C8_snapshot_throttle batteries_zero run_second_100 hmono).2.2 100 0 1 (by decide)
      (by decide) hobs.1 hobs.2⟩

/-! ## Frame assembly across reads -/

theorem sig_at_append_left (w t : List Byte) (j : Nat) (h : j + 2 < w.length) :
    sig_at (w ++ t) j = sig_at w j := by
  unfold sig_at
  rw [byte_at_append_left w t j (by omega), byte_at_append_left w t (j + 1) (by omega),
    byte_at_append_left w t (j + 2) h]

theorem sig_at_drop (buf : List Byte) (k j : Nat) :
    sig_at (buf.drop k) j = sig_at buf (k + j) := by
  unfold sig_at
  rw [byte_at_drop, byte_at_drop, byte_at_drop]
  rfl

theorem crc_matches_append_of_le (w t : List Byte) (h : FRAME_LEN ≤ w.length) :
    crc_matches (w ++ t) = crc_matches w := by
  have e : w ++ t = w.take FRAME_LEN ++ (w.drop FRAME_LEN ++ t) := by
    rw [← List.append_assoc, List.take_append_drop]
  have hl : (w.take FRAME_LEN).length = FRAME_LEN := by
    rw [List.length_take]; omega
  rw [e, crc_matches_append_left _ _ hl]
  conv_rhs => rw [← List.take_append_drop FRAME_LEN w]
  rw [crc_matches_append_left _ _ hl]

theorem decode_frame_append_of_le (now : Int) (w t : List Byte)
    (g : Fin MAX_BATTERIES → battery_t) (h : FRAME_LEN ≤ w.length) :
    decode_frame now (w ++ t) g = decode_frame now w g := by
  have e : w ++ t = w.take FRAME_LEN ++ (w.drop FRAME_LEN ++ t) := by
    rw [← List.append_assoc, List.take_append_drop]
  have hl : (w.take FRAME_LEN).length = FRAME_LEN := by
    rw [List.length_take]; omega
  rw [e, decode_frame_append_left _ _ _ g hl]
  conv_rhs => rw [← List.take_append_drop FRAME_LEN w]
  rw [decode_frame_append_left _ _ _ g hl]

theorem find_signature_append (x b : List Byte) (idx : Nat)
    (h : find_signature x = some idx) : find_signature (x ++ b) = some idx := by
  rw [find_signature_eq_some] at h ⊢
  obtain ⟨h1, h2, h3⟩ := h
  simp only [FRAME_LEN] at h1
  refine ⟨by simp only [List.length_append, FRAME_LEN]; omega, ?_, fun j hj => ?_⟩
  · rw [sig_at_append_left x b idx (by omega)]; exact h2
  · rw [sig_at_append_left x b j (by omega)]; exact h3 j hj

/-- The decoder respects equality of readings (timestamps aside), whatever the
clock. -/
theorem decode_frame_same_readings (n1 n2 : Int) (f : List Byte)
    (g1 g2 : Fin MAX_BATTERIES → battery_t) (h : same_readings g1 g2) :
    same_readings (decode_frame n1 f g1) (decode_frame n2 f g2) := by
  by_cases hrej : byte_at f 0 = 0 ∨ byte_at f 0 > MAX_BATTERIES
  · rw [decode_frame_rejects n1 f g1 hrej, decode_frame_rejects n2 f g2 hrej]; exact h
  · have hk : byte_at f 0 - 1 < MAX_BATTERIES := by
      simp only [MAX_BATTERIES] at *; omega
    have hk2 : (⟨byte_at f 0 - 1, hk⟩ : Fin MAX_BATTERIES).val + 1 = byte_at f 0 := by
      simp only; omega
    rw [decode_frame_accepts n1 f g1 _ hk2, decode_frame_accepts n2 f g2 _ hk2]
    intro j
    by_cases hj : j = ⟨byte_at f 0 - 1, hk⟩
    · subst hj
      simp only [Function.update_same]
      rfl
    · simp only [Function.update_noteq hj]
      exact h j

/-- The scanner's work on the buffer does not depend on the table or the clock,
and it respects equality of readings. -/
theorem process_buffer_same_readings (n : Nat) :
    ∀ (c1 c2 : Nat → Int) (y : List Byte) (g1 g2 : Fin MAX_BATTERIES → battery_t),
      y.length ≤ n → same_readings g1 g2 →
      (process_buffer c1 { g_buf := y, g_batteries := g1 }).g_buf =
        (process_buffer c2 { g_buf := y, g_batteries := g2 }).g_buf ∧
      same_readings (process_buffer c1 { g_buf := y, g_batteries := g1 }).g_batteries
        (process_buffer c2 { g_buf := y, g_batteries := g2 }).g_batteries := by
  induction n with
  | zero =>
    intro c1 c2 y g1 g2 hy h
    rw [process_buffer_short c1 _ (by simp only [FRAME_LEN]; omega),
      process_buffer_short c2 _ (by simp only [FRAME_LEN]; omega)]
    exact ⟨rfl, h⟩
  | succ n ih =>
    intro c1 c2 y g1 g2 hy h
    by_cases hlen : y.length < FRAME_LEN
    · rw [process_buffer_short c1 _ hlen, process_buffer_short c2 _ hlen]
      exact ⟨rfl, h⟩
    · cases hfind : find_signature y with
      | none =>
        rw [process_buffer_none c1 { g_buf := y, g_batteries := g1 } (by simp only; omega) hfind,
          process_buffer_none c2 { g_buf := y, g_batteries := g2 } (by simp only; omega) hfind]
        split
        · exact ⟨rfl, h⟩
        · exact ⟨rfl, h⟩
      | some idx =>
        have hidx := ((find_signature_eq_some _ _).1 hfind).1
        rw [process_buffer_some c1 { g_buf := y, g_batteries := g1 } idx hfind,
          process_buffer_some c2 { g_buf := y, g_batteries := g2 } idx hfind]
        apply ih
        · simp only [List.length_drop, FRAME_LEN] at *; omega
        · simp only
          split
          · exact decode_frame_same_readings _ _ _ _ _ h
          · exact h

/-- Bytes ahead of the first signature do not matter to the table: dropping `k`
bytes none of which starts a signature gives the same table. -/
theorem process_buffer_skip (c : Nat → Int) (y : List Byte) (k : Nat)
    (g : Fin MAX_BATTERIES → battery_t) (hk : ∀ p, p < k → sig_at y p = false) :
    (process_buffer c { g_buf := y.drop k, g_batteries := g }).g_batteries =
      (process_buffer c { g_buf := y, g_batteries := g }).g_batteries := by
  by_cases hlen : y.length < FRAME_LEN
  · rw [process_buffer_short c { g_buf := y, g_batteries := g } hlen,
      process_buffer_short c { g_buf := y.drop k, g_batteries := g }
        (by simp only [List.length_drop]; omega)]
  · cases hfind : find_signature y with
    | none =>
      have hstore : (process_buffer c { g_buf := y, g_batteries := g }).g_batteries = g := by
        rw [process_buffer_none c { g_buf := y, g_batteries := g } (by simp only; omega) hfind]
        split <;> rfl
      rw [hstore]
      by_cases hlen2 : (y.drop k).length < FRAME_LEN
      · rw [process_buffer_short c { g_buf := y.drop k, g_batteries := g } hlen2]
      · have hfind2 : find_signature (y.drop k) = none := by
          rw [find_signature_eq_none] at hfind ⊢
          intro j hj
          rw [sig_at_drop]
          apply hfind
          simp only [List.length_drop, FRAME_LEN] at *; omega
        rw [process_buffer_none c { g_buf := y.drop k, g_batteries := g }
          (by simp only; omega) hfind2]
        split <;> rfl
    | some idx =>
      obtain ⟨h1, h2, h3⟩ := (find_signature_eq_some _ _).1 hfind
      have hki : k ≤ idx := by
        by_contra hlt
        have := hk idx (by omega)
        rw [h2] at this; cases this
      have hfind2 : find_signature (y.drop k) = some (idx - k) := by
        rw [find_signature_eq_some]
        refine ⟨by simp only [List.length_drop, FRAME_LEN] at *; omega, ?_, fun j hj => ?_⟩
        · rw [sig_at_drop, show k + (idx - k) = idx by omega]; exact h2
        · rw [sig_at_drop]; exact h3 _ (by omega)
      rw [process_buffer_some c { g_buf := y, g_batteries := g } idx hfind,
        process_buffer_some c { g_buf := y.drop k, g_batteries := g } (idx - k) hfind2]
      simp only [List.drop_drop, show idx - k + k = idx by omega, show k + (idx - k) = idx by omega]

theorem same_readings_refl (g : Fin MAX_BATTERIES → battery_t) : same_readings g g :=
  fun _ => rfl

theorem same_readings_trans {g1 g2 g3 : Fin MAX_BATTERIES → battery_t}
    (h12 : same_readings g1 g2) (h23 : same_readings g2 g3) : same_readings g1 g3 :=
  fun k => (h12 k).trans (h23 k)

/-- Processing a buffer `x`, then appending `b` and processing again, gives the
readings that processing `x ++ b` at once gives. -/
theorem process_buffer_split (n : Nat) :
    ∀ (c1 c2 c3 : Nat → Int) (x b : List Byte) (g1 g2 : Fin MAX_BATTERIES → battery_t),
      x.length ≤ n → same_readings g1 g2 →
      same_readings
        (process_buffer c2
          { g_buf := (process_buffer c1 { g_buf := x, g_batteries := g1 }).g_buf ++ b,
            g_batteries :=
              (process_buffer c1 { g_buf := x, g_batteries := g1 }).g_batteries }).g_batteries
        (process_buffer c3 { g_buf := x ++ b, g_batteries := g2 }).g_batteries := by
  induction n with
  | zero =>
    intro c1 c2 c3 x b g1 g2 hx h
    rw [process_buffer_short c1 { g_buf := x, g_batteries := g1 }
      (by simp only [FRAME_LEN]; omega)]
    exact (process_buffer_same_readings _ c2 c3 (x ++ b) g1 g2 (le_refl _) h).2
  | succ n ih =>
    intro c1 c2 c3 x b g1 g2 hx h
    by_cases hlen : x.length < FRAME_LEN
    · rw [process_buffer_short c1 { g_buf := x, g_batteries := g1 } hlen]
      exact (process_buffer_same_readings _ c2 c3 (x ++ b) g1 g2 (le_refl _) h).2
    · cases hfind : find_signature x with
      | none =>
        rw [process_buffer_none c1 { g_buf := x, g_batteries := g1 } (by simp only; omega) hfind]
        by_cases h39 : x.length > FRAME_LEN
        · simp only [h39, if_true]
          have hdrop : x.drop (x.length - (FRAME_LEN - 1)) ++ b =
              (x ++ b).drop (x.length - (FRAME_LEN - 1)) := by
            rw [List.drop_append_of_le_length (by omega)]
          rw [hdrop]
          have hskip := process_buffer_skip c2 (x ++ b) (x.length - (FRAME_LEN - 1)) g1
            (by
              intro p hp
              rw [find_signature_eq_none] at hfind
              rw [sig_at_append_left x b p (by simp only [FRAME_LEN] at *; omega)]
              exact hfind p (by simp only [FRAME_LEN] at *; omega))
          rw [hskip]
          exact (process_buffer_same_readings _ c2 c3 (x ++ b) g1 g2 (le_refl _) h).2
        · simp only [h39, if_false]
          exact (process_buffer_same_readings _ c2 c3 (x ++ b) g1 g2 (le_refl _) h).2
      | some idx =>
        have hidx := ((find_signature_eq_some _ _).1 hfind).1
        have hfind2 := find_signature_append x b idx hfind
        have hd1 : (x ++ b).drop idx = x.drop idx ++ b :=
          List.drop_append_of_le_length (by omega)
        have hl : FRAME_LEN ≤ (x.drop idx).length := by
          simp only [List.length_drop]; omega
        have hd2 : (x.drop idx ++ b).drop FRAME_LEN = (x.drop idx).drop FRAME_LEN ++ b :=
          List.drop_append_of_le_length hl
        rw [process_buffer_some c1 { g_buf := x, g_batteries := g1 } idx hfind,
          process_buffer_some c3 { g_buf := x ++ b, g_batteries := g2 } idx hfind2]
        simp only [hd1, hd2, crc_matches_append_of_le _ b hl,
          decode_frame_append_of_le _ _ b _ hl]
        apply ih
        · simp only [List.length_drop, FRAME_LEN] at *; omega
        · split
          · exact decode_frame_same_readings _ _ _ _ _ h
          · exact h

theorem append_chunk_of_fits (tmp buf : List Byte) (h : buf.length + tmp.length ≤ BUF_SIZE) :
    append_chunk tmp buf = buf ++ tmp := by
  have hd : discard_count tmp.length buf.length = 0 := by
    unfold discard_count
    simp only [BUF_SIZE] at *
    split <;> omega
  rw [append_chunk, hd, List.drop_zero]

/-- C4: frame assembly does not depend on how the stream is cut into reads.
For byte sequences `a`, `b` with `|a| + |b| <= 4096` and any table, from an
empty buffer, "append `a`; `process_buffer`; append `b`; `process_buffer`" ends
with the same table, capture timestamps aside, as "append `a ++ b`;
`process_buffer`", whatever the clock reads in either run. -/
theorem C4_split_independent (a b : List Byte) (g : Fin MAX_BATTERIES → battery_t)
    (c1 c2 c3 : Nat → Int) (hsize : a.length + b.length ≤ 4096) :
    same_readings
      (process_buffer c2
        { g_buf := append_chunk b
            (process_buffer c1 { g_buf := append_chunk a [], g_batteries := g }).g_buf,
          g_batteries :=
            (process_buffer c1
              { g_buf := append_chunk a [], g_batteries := g }).g_batteries }).g_batteries
      (process_buffer c3 { g_buf := append_chunk (a ++ b) [], g_batteries := g }).g_batteries := by
  have ha : append_chunk a [] = a := by
    rw [append_chunk_of_fits a [] (by simp only [List.length_nil, BUF_SIZE]; omega)]; rfl
  have hab : append_chunk (a ++ b) [] = a ++ b := by
    rw [append_chunk_of_fits (a ++ b) []
      (by simp only [List.length_nil, List.length_append, BUF_SIZE]; omega)]; rfl
  have hle := process_buffer_length_le _ c1 { g_buf := a, g_batteries := g } (le_refl _)
  rw [ha, hab, append_chunk_of_fits b _ (by simp only [BUF_SIZE] at *; omega)]
  exact process_buffer_split _ c1 c2 c3 a b g g (le_refl _) (same_readings_refl g)

/-- C4 at the frame of slave 5 cut after its tenth byte. -/
theorem C4_split_independent_witness :
    (frame5.take 10).length + (frame5.drop 10).length ≤ 4096 ∧
    same_readings
      (process_buffer (fun _ => 2)
        { g_buf := append_chunk (frame5.drop 10)
            (process_buffer (fun _ => 1)
              { g_buf := append_chunk (frame5.take 10) [],
                g_batteries := batteries_zero }).g_buf,
          g_batteries :=
            (process_buffer (fun _ => 1)
              { g_buf := append_chunk (frame5.take 10) [],
                g_batteries := batteries_zero }).g_batteries }).g_batteries
      (process_buffer (fun _ => 3)
        { g_buf := append_chunk (frame5.take 10 ++ frame5.drop 10) [],
          g_batteries := batteries_zero }).g_batteries :=
  ⟨by decide,
    C4_split_independent (frame5.take 10) (frame5.drop 10) batteries_zero (fun _ => 1)
      (fun _ => 2) (fun _ => 3) (by decide)⟩

/-! ## `crc16` is CRC-16/MODBUS -/

theorem xor_lt_65536 (a b : Nat) (ha : a < 65536) (hb : b < 65536) : a ^^^ b < 65536 :=
  @Nat.xor_lt_two_pow a b 16 ha hb

theorem crc16_bit_eq (c : Nat) (h : c < 65536) :
    crc16_bit c = if c % 2 = 1 then (c / 2) ^^^ 0xA001 else c / 2 := by
  have hs : c >>> 1 = c / 2 := by
    rw [Nat.shiftRight_eq_div_pow, Nat.pow_one]
  have hx : (c / 2) ^^^ 0xA001 < 65536 := xor_lt_65536 _ _ (by omega) (by decide)
  unfold crc16_bit
  rw [Nat.and_one_is_mod, hs]
  by_cases hc : c % 2 = 1
  · rw [if_pos (by omega), if_pos hc, Nat.mod_eq_of_lt hx]
  · rw [if_neg (by omega), if_neg hc, Nat.mod_eq_of_lt (by omega)]

theorem bool_toNat_lt (d : Bool) : d.toNat < 2 := by
  cases d <;> decide

/-- One message bit into the register: the code's shift after the bit is added
to the register's low bit. -/
theorem crc16_modbus_shift_eq (r : Nat) (d : Bool) (h : r < 65536) :
    crc16_modbus_shift r d = crc16_bit (r ^^^ d.toNat) := by
  have hlt : r ^^^ d.toNat < 65536 :=
    xor_lt_65536 _ _ h (by have := bool_toNat_lt d; omega)
  have hdiv : (r ^^^ d.toNat) / 2 = r / 2 := by
    rw [Nat.xor_div_two]
    have : d.toNat / 2 = 0 := by
      have := bool_toNat_lt d; omega
    rw [this, Nat.xor_zero]
  have hmod : (r ^^^ d.toNat) % 2 = (r + d.toNat) % 2 := Nat.xor_mod_two_eq
  rw [crc16_bit_eq _ (by omega), hdiv, hmod]
  unfold crc16_modbus_shift
  rw [Nat.testBit_zero]
  cases d
  · by_cases hr : r % 2 = 1
    · simp [hr]
    · simp [hr]
  · by_cases hr : r % 2 = 1
    · have h2 : ¬ (r + 1) % 2 = 1 := by omega
      simp [hr, h2]
    · have h2 : (r + 1) % 2 = 1 := by omega
      simp [hr, h2]

/-- The shift is linear in the bits above the lowest. -/
theorem crc16_bit_xor_double (y x : Nat) (hy : y < 65536) (hx : x < 32768) :
    crc16_bit (y ^^^ (2 * x)) = crc16_bit y ^^^ x := by
  have hlt : y ^^^ (2 * x) < 65536 := xor_lt_65536 _ _ hy (by omega)
  have hdiv : (y ^^^ (2 * x)) / 2 = y / 2 ^^^ x := by
    rw [Nat.xor_div_two]
    congr 1
    omega
  have hmod : (y ^^^ (2 * x)) % 2 = y % 2 := by
    rw [Nat.xor_mod_two_eq]; omega
  rw [crc16_bit_eq _ (by omega), crc16_bit_eq _ hy, hdiv, hmod]
  by_cases hc : y % 2 = 1
  · rw [if_pos hc, if_pos hc, Nat.xor_assoc, Nat.xor_comm x, ← Nat.xor_assoc]
  · rw [if_neg hc, if_neg hc]

theorem testBit_zero_xor_double (x : Nat) : (x.testBit 0).toNat ^^^ (2 * (x / 2)) = x := by
  apply Nat.eq_of_testBit_eq
  intro i
  rw [Nat.testBit_xor, Nat.testBit_bool_to_nat]
  cases i with
  | zero =>
    have h0 : (2 * (x / 2)).testBit 0 = false := by
      rw [Nat.testBit_zero]; simp
    rw [h0]; simp
  | succ i =>
    have h1 : (2 * (x / 2)).testBit (i + 1) = x.testBit (i + 1) := by
      rw [Nat.testBit_succ, Nat.testBit_succ]
      congr 1
      omega
    rw [h1]; simp

theorem foldl_const_iterate (f : Nat → Nat) (l : List Nat) (x : Nat) :
    l.foldl (fun c _ => f c) x = f^[l.length] x := by
  induction l generalizing x with
  | nil => rfl
  | cons a l ih => rw [List.foldl_cons, ih, List.length_cons, Function.iterate_succ_apply]

/-- Feeding the low `k` bits of `x` one at a time is adding `x` to the register
and shifting `k` times. -/
theorem foldl_bits_eq (k : Nat) :
    ∀ (r x : Nat), k ≤ 16 → r < 65536 → x < 2 ^ k →
      ((List.range k).map (fun i => x.testBit i)).foldl crc16_modbus_shift r =
        crc16_bit^[k] (r ^^^ x) := by
  induction k with
  | zero =>
    intro r x _ _ hx
    have : x = 0 := by simpa using hx
    subst this
    simp
  | succ k ih =>
    intro r x hk hr hx
    have hhalf : x / 2 < 2 ^ k := by
      rw [Nat.pow_succ] at hx; omega
    have h15 : x / 2 < 32768 := by
      have : 2 ^ k ≤ 2 ^ 15 := Nat.pow_le_pow_right (by decide) (by omega)
      have e : (2 : Nat) ^ 15 = 32768 := by decide
      omega
    have hmap : List.map (fun i => x.testBit i) (List.map Nat.succ (List.range k)) =
        List.map (fun i => (x / 2).testBit i) (List.range k) := by
      rw [List.map_map]
      apply List.map_congr_left
      intro i _
      exact Nat.testBit_succ x i
    have hd : r ^^^ (x.testBit 0).toNat < 65536 :=
      xor_lt_65536 _ _ hr (by have := bool_toNat_lt (x.testBit 0); omega)
    rw [List.range_succ_eq_map, List.map_cons, List.foldl_cons, hmap,
      ih _ _ (by omega) (by rw [crc16_modbus_shift_eq r _ hr]; exact crc16_bit_lt _) hhalf,
      crc16_modbus_shift_eq r _ hr, ← crc16_bit_xor_double _ _ hd h15, Nat.xor_assoc,
      testBit_zero_xor_double, Function.iterate_succ_apply]

/-- One byte: the code's "xor the byte in, shift eight times" is the bit-serial
register of the specification. -/
theorem crc16_byte_eq (r : Nat) (b : Byte) (hr : r < 65536) :
    crc16_byte r b = crc16_modbus_byte r b := by
  have hb : b.val < 2 ^ 8 := b.isLt
  have hlt : r ^^^ b.val < 65536 := xor_lt_65536 _ _ hr (by have := b.isLt; omega)
  unfold crc16_byte crc16_modbus_byte bits_lsb_first
  rw [foldl_bits_eq 8 r b.val (by decide) hr hb, foldl_const_iterate, List.length_range,
    Nat.mod_eq_of_lt (by omega)]

theorem foldl_crc16_byte_eq (l : List Byte) :
    ∀ (r : Nat), r < 65536 → l.foldl crc16_byte r = l.foldl crc16_modbus_byte r := by
  induction l with
  | nil => intro r _; rfl
  | cons b l ih =>
    intro r hr
    rw [List.foldl_cons, List.foldl_cons, ← crc16_byte_eq r b hr]
    exact ih _ (crc16_byte_lt r b)

/-- C2: `crc16` over the first `len` bytes of a buffer is their CRC-16/MODBUS
checksum (register from `0xFFFF`, reflected polynomial `0xA001`, bytes in
order, bits least significant first, no final xor), a 16-bit value. The
checksum of `05 03 22` and 34 zero bytes is `0x83C1`, that of the ASCII bytes
`123456789` is `0x4B37`, and that of the empty sequence is `0xFFFF`. -/
theorem C2_crc16_is_modbus :
    (∀ (buf : List Byte) (len : Nat), crc16 buf len = crc16_modbus (buf.take len)) ∧
    (∀ buf : List Byte, crc16 buf buf.length = crc16_modbus buf) ∧
    (∀ (buf : List Byte) (len : Nat), crc16 buf len < 65536) ∧
    crc16 crc_vector 37 = 0x83C1 ∧
    crc16 ascii_check 9 = 0x4B37 ∧
    crc16 [] 0 = 0xFFFF := by
  have h1 : ∀ (buf : List Byte) (len : Nat), crc16 buf len = crc16_modbus (buf.take len) :=
    fun buf len => foldl_crc16_byte_eq _ _ (by decide)
  refine ⟨h1, fun buf => ?_, crc16_lt, by decide, by decide, by decide⟩
  rw [h1, List.take_length]

end ModbusSniffer
